import Mathlib

/-!
# sloc: a verification development

A shallow embedding of `src/main.go` (package `main` of `alexongh/sloc`) and the
properties of its three parts:

* `countLines`  (main.go 184-213): the block-wise newline counter;
* the chunked counting run of `main` (main.go 48-98): the loop that slices
  `result.Files` into chunks, the workers started with `eg.Go`, and `eg.Wait`;
* `crawl` (main.go 124-182): the recursive directory walk that changes the
  working directory on the way down and calls `os.Chdir("..")` on the way up.

Modelling conventions.

* Go's `int` is 64 bits wide.  Every integer of the program is a count of files
  or of newline bytes, or an index bounded by such a count, and stays far below
  `2 ^ 63`; they are modelled in `Nat`.
* The goroutines of the counting run are interleaved by an explicit schedule;
  the results are proved for every schedule.
* A path is the list of its components below the filesystem root, so that
  `fmt.Sprintf("%s/%s", wd, name)` is `wd ++ [name]`.
* What the operating system answers (`os.Open`, `File.Read`, `os.Chdir`,
  `os.ReadDir`) is read off an explicit description of the filesystem.
-/

namespace Sloc

/-! ## Paths and errors -/

/-- An absolute path: the components below the filesystem root. -/
abbrev Path := List String

/-- The errors the program can see. -/
inductive IOErr where
  /-- The call `os.Open` failed. -/
  | openFailed
  /-- The `file == nil` branch of `countLines`. -/
  | nilFile
  /-- The call `File.Read` returned an error other than `io.EOF`. -/
  | readFailed
  /-- The value of `ctx.Err()` once the errgroup context is cancelled. -/
  | cancelled
  /-- The call `os.Chdir` failed. -/
  | chdirFailed
  /-- The call `os.ReadDir` failed. -/
  | readDirFailed
  deriving DecidableEq, Repr

/-! ## `countLines` -/

/-- A byte. -/
abbrev Byte := Fin 256

/-- The newline byte. -/
def newLine : Byte := 10

/-- The size of the buffer `countLines` allocates for every read. -/
def bufSize : Nat := 8192

/-- The error component of what `File.Read` returns, when it is not `nil`. -/
inductive ReadErr where
  | eof
  | other
  deriving DecidableEq, Repr

/-- One call of `file.Read(buf)`: the bytes stored at the front of `buf` and
the error returned with them. -/
structure ReadResult where
  data : List Byte
  err : Option ReadErr
  deriving DecidableEq, Repr

/-- What `os.Open` gives for a path: an error, a nil handle without an error,
or a handle, described by the answers of its successive `Read` calls.  Once the
listed answers are used up every further `Read` returns `0, io.EOF`. -/
inductive OpenResult where
  | fails
  | nilHandle
  | handle (reads : List ReadResult)
  deriving DecidableEq, Repr

/-- The buffer after `buf := make([]byte, 8192)` and a `Read` that stored
`data`: at most `bufSize` bytes of data, the rest still zero. -/
def fillBuf (data : List Byte) : List Byte :=
  data.take bufSize ++ List.replicate (bufSize - (data.take bufSize).length) 0

/-- The call `bytes.Count(buf, newLine)` for the one-byte separator. -/
def bytesCount (buf : List Byte) (sep : Byte) : Nat :=
  buf.count sep

/-- The `for` loop of `countLines` (main.go 196-210), `lc` being the running
count. -/
def readLoop : List ReadResult → Nat → Except IOErr Nat
  | [], lc => .ok lc
  | r :: rest, lc =>
    match r.err with
    | some .eof => .ok lc
    | some .other => .error .readFailed
    | none => readLoop rest (lc + bytesCount (fillBuf r.data) newLine)

/-- The function `countLines` (main.go 184-213). -/
def countLines (fsOpen : Path → OpenResult) (fileName : Path) : Except IOErr Nat :=
  match fsOpen fileName with
  | .fails => .error .openFailed
  | .nilHandle => .error .nilFile
  | .handle reads => readLoop reads 0

/-- A handle on a file whose content arrives as the given successive blocks,
followed by end-of-input. -/
def deliver (blocks : List (List Byte)) : OpenResult :=
  .handle (blocks.map (fun b => ⟨b, none⟩) ++ [⟨[], some .eof⟩])

/-- The number of logical lines of a text, as an editor shows them: every
newline byte ends a line, and bytes after the last newline form one more line. -/
def logicalLinesFrom : Bool → List Byte → Nat
  | inLine, [] => if inLine then 1 else 0
  | _, b :: bs => if b = newLine then 1 + logicalLinesFrom false bs else logicalLinesFrom true bs

/-- The number of logical lines of a text, see `logicalLinesFrom`. -/
def logicalLines (content : List Byte) : Nat :=
  logicalLinesFrom false content

/-! ## The chunked counting run of `main` (main.go 48-98) -/

/-- The slice expression `l[lo:hi]` of Go, `none` when it panics.  The capacity
of `l` is taken to be its length. -/
def goSlice {α : Type} (l : List α) (lo hi : Nat) : Option (List α) :=
  if lo ≤ hi ∧ hi ≤ l.length then some ((l.take hi).drop lo) else none

/-- One evaluation of `fileCunk := result.Files[i:end]`: the two bounds and the
slice. -/
structure Chunk where
  low : Nat
  high : Nat
  files : List Path
  deriving DecidableEq, Repr

/-- The value of `iterations` after main.go 52-55, for `n` files. -/
def iterations (n chunkSize : Nat) : Nat :=
  if n / chunkSize = 0 then 1 else n / chunkSize

/-- The loop of main.go 61-93 as far as the chunks go: `todo` is the number of
rounds left (`iterations - i`), `i` the loop index and `offset` the running
offset at the head of the round.  The result lists the chunk each round hands to
its worker; `none` is a slice-bounds panic. -/
def chunkLoop (files : List Path) (chunkSize : Nat) : Nat → Nat → Nat → Option (List Chunk)
  | 0, _, _ => some []
  | todo + 1, i, offset =>
    let offset := offset + chunkSize
    let end_ := if offset + chunkSize > files.length then files.length else offset + chunkSize
    match goSlice files i end_ with
    | none => none
    | some fileCunk =>
      match chunkLoop files chunkSize todo (i + 1) offset with
      | none => none
      | some rest => some (⟨i, end_, fileCunk⟩ :: rest)

/-- The chunks handed to the workers for a file list and a chunk size. -/
def chunks (files : List Path) (chunkSize : Nat) : Option (List Chunk) :=
  chunkLoop files chunkSize (iterations files.length chunkSize) 0 0

/-- In how many of the chunks the index `j` of the file list lies. -/
def coverCount (cs : List Chunk) (j : Nat) : Nat :=
  (cs.filter (fun ch => decide (ch.low ≤ j ∧ j < ch.high))).length

/-- The state of one goroutine started by `eg.Go` (main.go 72-92): the files of
`fileCunk` not yet counted, whether `ctx.Err()` was already found nil for the
first of them, the subtotal `totalLinesOfCode`, and the value returned once the
goroutine is over (`some none` for `nil`). -/
structure Worker where
  todo : List Path
  checked : Bool
  sub : Nat
  ret : Option (Option IOErr)
  deriving DecidableEq, Repr

/-- The state shared by the goroutines: their own states, `totalLoc`, and the
first error recorded by the errgroup; the context `ctx` is cancelled exactly
when an error is recorded. -/
structure RunState where
  workers : List Worker
  totalLoc : Nat
  egErr : Option IOErr
  deriving DecidableEq, Repr

/-- The state after the loop of main.go 61-93 has started one goroutine per
chunk. -/
def RunState.start (cs : List Chunk) : RunState :=
  ⟨cs.map (fun ch => ⟨ch.files, false, 0, none⟩), 0, none⟩

/-- One atomic step of goroutine `k`: the test of `ctx.Err()` before a file, or
the call of `countLines` on that file, or, the files being through, the locked
addition to `totalLoc` and the return of `nil`.  A returned error is recorded by
the errgroup if it is the first one. -/
def step (fsOpen : Path → OpenResult) (s : RunState) (k : Nat) : RunState :=
  match s.workers[k]? with
  | none => s
  | some w =>
    match w.ret with
    | some _ => s
    | none =>
      match w.todo with
      | [] =>
        { workers := s.workers.set k { w with ret := some none }
          totalLoc := s.totalLoc + w.sub
          egErr := s.egErr }
      | fileName :: rest =>
        if w.checked then
          match countLines fsOpen fileName with
          | .error e =>
            { workers := s.workers.set k { w with ret := some (some e) }
              totalLoc := s.totalLoc
              egErr := match s.egErr with
                | none => some e
                | some first => some first }
          | .ok lc =>
            { workers := s.workers.set k ⟨rest, false, w.sub + lc, none⟩
              totalLoc := s.totalLoc
              egErr := s.egErr }
        else
          match s.egErr with
          | some _ =>
            { workers := s.workers.set k { w with ret := some (some .cancelled) }
              totalLoc := s.totalLoc
              egErr := s.egErr }
          | none =>
            { workers := s.workers.set k { w with checked := true }
              totalLoc := s.totalLoc
              egErr := s.egErr }

/-- The run of the goroutines under a schedule, the list of the goroutines that
take the successive steps. -/
def exec (fsOpen : Path → OpenResult) (s : RunState) (sched : List Nat) : RunState :=
  sched.foldl (step fsOpen) s

/-- Every goroutine has returned: `eg.Wait()` returns. -/
def RunState.finished (s : RunState) : Bool :=
  s.workers.all (fun w => w.ret.isSome)

/-- How the counting part of `main` ends. -/
inductive RunResult where
  /-- A slice expression panicked. -/
  | panic
  /-- The schedule ended before every goroutine had returned. -/
  | running
  /-- The branch `err != nil` after `eg.Wait()`: the error is printed, the
  process exits with status 1 and no total is printed. -/
  | failed (e : IOErr)
  /-- The summary is printed with these values of `totalLoc` and `iterations`. -/
  | summary (totalLoc iterations : Nat)
  deriving DecidableEq, Repr

/-- The counting part of `main` (main.go 48-98) for a chunk size and a
schedule of the goroutines. -/
def countTotalLines (fsOpen : Path → OpenResult) (files : List Path) (chunkSize : Nat)
    (sched : List Nat) : RunResult :=
  match chunks files chunkSize with
  | none => .panic
  | some cs =>
    let s := exec fsOpen (RunState.start cs) sched
    if s.finished then
      match s.egErr with
      | some e => .failed e
      | none => .summary s.totalLoc cs.length
    else .running

/-- The schedule that lets each of `k` goroutines take a step in turn, `rounds`
times. -/
def roundRobin (k rounds : Nat) : List Nat :=
  (List.replicate rounds (List.range k)).flatten

/-- The chunk size built into `main` (main.go 48). -/
def builtinChunkSize : Nat := 100000

/-- The sum of the newline counts of the files of a list, unreadable files
counting for nothing. -/
def sumCounts (fsOpen : Path → OpenResult) (files : List Path) : Nat :=
  (files.map (fun f => match countLines fsOpen f with
    | .ok lc => lc
    | .error _ => 0)).sum

/-- Whether `countLines` succeeds on a file. -/
def readable (fsOpen : Path → OpenResult) (f : Path) : Bool :=
  match countLines fsOpen f with
  | .ok _ => true
  | .error _ => false

/-- The chunk of round `i` in closed form: the bounds are `i` and
`min ((i + 2) * chunkSize) (len files)`. -/
def chunkAt (files : List Path) (chunkSize i : Nat) : Chunk :=
  ⟨i, min ((i + 2) * chunkSize) files.length,
    (files.take (min ((i + 2) * chunkSize) files.length)).drop i⟩

/-- What a goroutine has added to `totalLoc`: its subtotal once it has
returned `nil`, nothing before and nothing if it returned an error. -/
def contrib (w : Worker) : Nat :=
  match w.ret with
  | some none => w.sub
  | _ => 0

/-- The invariant of one goroutine with respect to its chunk: while it runs,
the files already counted are a prefix of the chunk, all were readable, and the
subtotal is the sum of their counts; when it has returned `nil` the whole chunk
was readable and the subtotal is the sum over the chunk. -/
def WorkerInv (fsOpen : Path → OpenResult) (files : List Path) (w : Worker) : Prop :=
  match w.ret with
  | some (some _) => True
  | some none =>
    (∀ f ∈ files, readable fsOpen f = true) ∧ w.sub = sumCounts fsOpen files
  | none =>
    ∃ done, files = done ++ w.todo ∧ (∀ f ∈ done, readable fsOpen f = true)
      ∧ w.sub = sumCounts fsOpen done

/-- The invariant of the counting run for the chunks `cs`. -/
def RunInv (fsOpen : Path → OpenResult) (cs : List Chunk) (s : RunState) : Prop :=
  List.Forall₂ (fun ch w => WorkerInv fsOpen ch.files w) cs s.workers
    ∧ (∀ w ∈ s.workers, ∀ e, w.ret = some (some e) → s.egErr ≠ none)
    ∧ (s.egErr ≠ none → ∃ ch ∈ cs, ∃ f ∈ ch.files, readable fsOpen f = false)
    ∧ s.totalLoc = (s.workers.map contrib).sum

/-- An upper bound on the number of steps a goroutine still takes. -/
def stepsLeft (w : Worker) : Nat :=
  match w.ret with
  | some _ => 0
  | none => 2 * w.todo.length + 1 + (if w.checked then 0 else 1)

/-- A schedule gives each of the goroutines of the run enough steps to return:
two for every file of the list and two more. -/
def enoughSteps (files : List Path) (chunkSize : Nat) (sched : List Nat) : Prop :=
  ∀ k, k < iterations files.length chunkSize → 2 * files.length + 2 ≤ sched.count k

/-- The total the run adds up over its first `m` chunks when every file is
readable. -/
def chunkTotal (fsOpen : Path → OpenResult) (files : List Path) (chunkSize m : Nat) : Nat :=
  ((List.range m).map (fun i => sumCounts fsOpen (chunkAt files chunkSize i).files)).sum

/-- A filesystem in which every file opens and holds the single byte `'\n'`. -/
def oneLineFiles : Path → OpenResult :=
  fun _ => deliver [[newLine]]

/-- A list of `n` distinct file paths `/repo/0`, `/repo/1`, ... -/
def manyFiles (n : Nat) : List Path :=
  (List.range n).map (fun i => ["repo", toString i])

/-- A filesystem in which `/repo/locked` cannot be opened and every other file
holds the single byte `'\n'`. -/
def lockedFile : Path → OpenResult :=
  fun p => if p = ["repo", "locked"] then .fails else deliver [[newLine]]

/-! ## The filesystem seen by `crawl` -/

/-- A node of the directory tree: a non-directory entry, or a directory with
its two permissions (it can be entered by `os.Chdir`, it can be listed by
`os.ReadDir`) and its entries in the order `os.ReadDir` lists them. -/
inductive Node where
  | file : Node
  | dir (canEnter canList : Bool) (entries : List (String × Node)) : Node

/-- Whether a node is a directory: `entry.IsDir()`. -/
def Node.isDir : Node → Bool
  | .file => false
  | .dir _ _ _ => true

/-- The entry of a directory with a given name. -/
def Node.child : Node → String → Option Node
  | .file, _ => none
  | .dir _ _ entries, name => entries.lookup name

/-- The node at an absolute path, `root` being the node of `/`. -/
def lookup (root : Node) : Path → Option Node
  | [] => some root
  | name :: rest =>
    match root.child name with
    | none => none
    | some node => lookup node rest

/-- The arguments the program passes to `os.Chdir`: `"."`, `".."`, and an
absolute path. -/
inductive DirArg where
  | dot
  | dotdot
  | abs (p : Path)
  deriving DecidableEq, Repr

/-- Entering the directory at an absolute path: it must be a directory that can
be entered. -/
def enter (root : Node) (p : Path) : Except IOErr Path :=
  match lookup root p with
  | some (.dir true _ _) => .ok p
  | _ => .error .chdirFailed

/-- The call `os.Chdir(dir)` with working directory `cwd`: the new working
directory, or an error.  The parent of `/` is `/`. -/
def chdir (root : Node) (cwd : Path) : DirArg → Except IOErr Path
  | .dot => enter root cwd
  | .dotdot => enter root cwd.dropLast
  | .abs p => enter root p

/-- One entry of a listing: `entry.Name()` and `entry.IsDir()`. -/
structure DirEntry where
  name : String
  isDir : Bool
  deriving DecidableEq, Repr

/-- The call `os.ReadDir(wd)` for the path `wd` of a directory. -/
def readDir (root : Node) (wd : Path) : Except IOErr (List DirEntry) :=
  match lookup root wd with
  | some (.dir _ true entries) => .ok (entries.map (fun e => ⟨e.1, e.2.isDir⟩))
  | _ => .error .readDirFailed

/-- The type `Result` (main.go 119-122). -/
structure Result where
  Dirs : List Path
  Files : List Path
  deriving DecidableEq, Repr

/-- How a call of `crawl` ends: by returning a result, by returning an error, or
in a panic. -/
inductive Outcome where
  | ok (r : Result)
  | error (e : IOErr)
  | panic
  deriving DecidableEq, Repr

/-- The first loop of `crawl` (main.go 150-168) in the directory `wd`: `none` is
the panic of `name[0]` on an empty name.  The first byte of a name is 46 exactly
when its first character is the dot. -/
def scanEntries (wd : Path) : List DirEntry → Result → Option Result
  | [], result => some result
  | entry :: rest, result =>
    match entry.name.data with
    | [] => none
    | ch :: _ =>
      if ch.toNat = 46 then scanEntries wd rest result
      else if entry.isDir then
        scanEntries wd rest { result with Dirs := result.Dirs ++ [wd ++ [entry.name]] }
      else
        scanEntries wd rest { result with Files := result.Files ++ [wd ++ [entry.name]] }

/-- The second loop of `crawl` (main.go 171-178) over the directories found by
the first loop, `rec` being the recursive call and `cwd` the working directory.
A call that does not end leaves the loop without an end. -/
def crawlDirs (rec : Path → DirArg → Option (Path × Outcome)) :
    List Path → Path → Result → Option (Path × Outcome)
  | [], cwd, result => some (cwd, .ok result)
  | dir :: rest, cwd, result =>
    match rec cwd (.abs dir) with
    | none => none
    | some (cwd', .ok dirResult) =>
      crawlDirs rec rest cwd'
        ⟨result.Dirs ++ dirResult.Dirs, result.Files ++ dirResult.Files⟩
    | some (cwd', .error e) => some (cwd', .error e)
    | some (cwd', .panic) => some (cwd', .panic)

/-- The function `crawl` (main.go 124-182) with working directory `cwd`: the
working directory when the call is over, and how it ends.  The first argument
bounds the depth of the recursion; `none` means the bound was reached.  The
function deferred at main.go 126-130 runs on every way out of the body. -/
def crawl (root : Node) : Nat → Path → DirArg → Option (Path × Outcome)
  | 0, _, _ => none
  | fuel + 1, cwd, dir =>
    let body : Option (Path × Outcome) :=
      match chdir root cwd dir with
      | .error e => some (cwd, .error e)
      | .ok wd =>
        match readDir root wd with
        | .error e => some (wd, .error e)
        | .ok entries =>
          match scanEntries wd entries ⟨[], []⟩ with
          | none => some (wd, .panic)
          | some result =>
            if result.Dirs.length > 0 then
              crawlDirs (crawl root fuel) result.Dirs wd result
            else some (wd, .ok result)
    match body with
    | none => none
    | some (cwd', out) =>
      match chdir root cwd' .dotdot with
      | .error _ => some (cwd', .panic)
      | .ok cwd'' => some (cwd'', out)

/-- The directory of the example: it holds `a.txt`, `sub/b.txt` and
`.hidden/c.txt`. -/
def exampleDir : Node :=
  .dir true true
    [(".hidden", .dir true true [("c.txt", .file)]),
     ("a.txt", .file),
     ("sub", .dir true true [("b.txt", .file)])]

/-- The tree of the example: the directory of the example is `/root`. -/
def exampleTree : Node :=
  .dir true true [("root", exampleDir)]

/-- A tree in which the directory `/home/proj/sub` cannot be entered. -/
def lockedTree : Node :=
  .dir true true [("home", .dir true true [("proj", .dir true true
    [("a.txt", .file),
     ("sub", .dir false true [("b.txt", .file)])])])]

/-- Whether a name begins with a dot (the byte 46). -/
def beginsWithDot (name : String) : Bool :=
  match name.data with
  | [] => false
  | ch :: _ => decide (ch.toNat = 46)

mutual
/-- Every directory of the tree can be entered and listed. -/
def Node.accessible : Node → Bool
  | .file => true
  | .dir canEnter canList entries => canEnter && canList && accessibleList entries
/-- Every directory below the entries of a list can be entered and listed. -/
def accessibleList : List (String × Node) → Bool
  | [] => true
  | e :: rest => e.2.accessible && accessibleList rest
end

/-- The names of a listing are not empty and no two entries share a name. -/
def namesOk (entries : List (String × Node)) : Bool :=
  decide ((entries.map Prod.fst).Nodup) && entries.all (fun e => !e.1.data.isEmpty)

mutual
/-- In every directory of the tree the names are not empty and distinct, as
they are in a filesystem. -/
def Node.wellNamed : Node → Bool
  | .file => true
  | .dir _ _ entries => namesOk entries && wellNamedList entries
/-- The same for the nodes of a list of entries. -/
def wellNamedList : List (String × Node) → Bool
  | [] => true
  | e :: rest => e.2.wellNamed && wellNamedList rest
end

mutual
/-- The height of a tree: 0 for a non-directory, 1 for a directory without
subdirectories. -/
def Node.height : Node → Nat
  | .file => 0
  | .dir _ _ entries => heightList entries + 1
/-- The largest height among the nodes of a list of entries. -/
def heightList : List (String × Node) → Nat
  | [] => 0
  | e :: rest => max e.2.height (heightList rest)
end

/-- The path `p` is reached from the directory `loc` through one or more names,
none of which begins with a dot. -/
def Below (loc p : Path) : Prop :=
  ∃ rel, rel ≠ [] ∧ p = loc ++ rel ∧ ∀ name ∈ rel, beginsWithDot name = false

/-- The path `p` names an entry of the tree, a directory or not as `isDir`
says. -/
def EntryAt (root : Node) (p : Path) (isDir : Bool) : Prop :=
  ∃ node, lookup root p = some node ∧ node.isDir = isDir

/-- What a result of `crawl` in the directory `loc` is to be: `Dirs` holds
exactly the directories and `Files` exactly the other entries reached from `loc`
through names that do not begin with a dot, each of them once. -/
def CrawlSpec (root : Node) (loc : Path) (r : Result) : Prop :=
  (∀ p, p ∈ r.Dirs ↔ Below loc p ∧ EntryAt root p true)
    ∧ (∀ p, p ∈ r.Files ↔ Below loc p ∧ EntryAt root p false)
    ∧ r.Dirs.Nodup ∧ r.Files.Nodup

/-- The names of the subdirectories a listing shows that do not begin with a
dot. -/
def dirNames (entries : List (String × Node)) : List String :=
  (entries.filter (fun e => !beginsWithDot e.1 && e.2.isDir)).map Prod.fst

/-- The names of the other entries a listing shows that do not begin with a
dot. -/
def fileNames (entries : List (String × Node)) : List String :=
  (entries.filter (fun e => !beginsWithDot e.1 && !e.2.isDir)).map Prod.fst

/-! # Theorems -/

theorem count_fillBuf (data : List Byte) (h : data.length ≤ bufSize) :
    bytesCount (fillBuf data) newLine = data.count newLine := by
  have hz : ¬ ((0 : Byte) = newLine) := by decide
  have hz2 : ¬ ((0 : Byte) == newLine) = true := by decide
  simp [bytesCount, fillBuf, List.take_of_length_le h, List.count_replicate, hz2]

theorem readLoop_data (d : List Byte) (rest : List ReadResult) (lc : Nat) :
    readLoop (⟨d, none⟩ :: rest) lc = readLoop rest (lc + bytesCount (fillBuf d) newLine) := rfl

theorem readLoop_deliver (blocks : List (List Byte))
    (h : ∀ b ∈ blocks, b.length ≤ bufSize) (lc : Nat) :
    readLoop (blocks.map (fun b => ⟨b, none⟩) ++ [⟨[], some .eof⟩]) lc
      = .ok (lc + blocks.flatten.count newLine) := by
  induction blocks generalizing lc with
  | nil => simp [readLoop]
  | cons b bs ih =>
    have hb : b.length ≤ bufSize := h b (List.mem_cons_self _ _)
    have hbs : ∀ x ∈ bs, x.length ≤ bufSize := fun x hx => h x (List.mem_cons_of_mem _ hx)
    rw [List.map_cons, List.cons_append, readLoop_data, ih hbs, count_fillBuf b hb,
      List.flatten_cons, List.count_append, Nat.add_assoc]

/-! ### Lemmas on the chunks -/

theorem iterations_eq_max (n c : Nat) : iterations n c = max 1 (n / c) := by
  unfold iterations
  generalize n / c = q
  split <;> omega

theorem iterations_le (n c : Nat) : iterations n c ≤ n + 1 := by
  have h := Nat.div_le_self n c
  rw [iterations_eq_max]
  omega

theorem iterations_le_of_pos (n c : Nat) (hn : 1 ≤ n) : iterations n c ≤ n := by
  have h := Nat.div_le_self n c
  rw [iterations_eq_max]
  omega

theorem chunkLoop_eq (files : List Path) (c : Nat) (hc : 1 ≤ c) :
    ∀ todo i, i + todo ≤ files.length + 1 →
      chunkLoop files c todo i (i * c) = some ((List.range' i todo).map (chunkAt files c)) := by
  intro todo
  induction todo with
  | zero => intro i _; simp [chunkLoop]
  | succ t ih =>
    intro i hi
    have hend : (if i * c + c + c > files.length then files.length else i * c + c + c)
        = min ((i + 2) * c) files.length := by
      have : (i + 2) * c = i * c + c + c := by ring
      rw [this]
      split <;> omega
    have hle : i ≤ min ((i + 2) * c) files.length := by
      have h1 : i ≤ (i + 2) * c := by nlinarith
      omega
    have hoff : i * c + c = (i + 1) * c := by ring
    have hih := ih (i + 1) (by omega)
    simp only [chunkLoop, hend]
    rw [hoff, hih]
    simp [goSlice, hle, List.range'_succ, chunkAt]

theorem chunks_eq (files : List Path) (c : Nat) (hc : 1 ≤ c) :
    chunks files c
      = some ((List.range (iterations files.length c)).map (chunkAt files c)) := by
  have h := chunkLoop_eq files c hc (iterations files.length c) 0
    (by have := iterations_le files.length c; omega)
  simp only [Nat.zero_mul] at h
  rw [chunks, h, List.range_eq_range']

theorem iterations_eq_one (n c : Nat) (hc : 1 ≤ c) (h : n < 2 * c) : iterations n c = 1 := by
  have hq : n / c < 2 := (Nat.div_lt_iff_lt_mul (by omega)).2 h
  rw [iterations_eq_max]
  omega

theorem two_le_iterations (n c : Nat) (hc : 1 ≤ c) (h : 2 * c ≤ n) : 2 ≤ iterations n c := by
  have hq : 2 ≤ n / c := (Nat.le_div_iff_mul_le (by omega)).2 h
  rw [iterations_eq_max]
  omega

theorem lt_succ_iterations_mul (n c : Nat) (hc : 1 ≤ c) : n < (iterations n c + 1) * c := by
  have h1 : n < (n / c + 1) * c := Nat.lt_mul_of_div_lt (Nat.lt_succ_self _) (by omega)
  have h2 : n / c ≤ iterations n c := by rw [iterations_eq_max]; omega
  calc n < (n / c + 1) * c := h1
    _ ≤ (iterations n c + 1) * c := Nat.mul_le_mul_right c (by omega)

theorem chunkAt_bounds (files : List Path) (c i : Nat) (hc : 1 ≤ c) (hi : i ≤ files.length) :
    (chunkAt files c i).low ≤ (chunkAt files c i).high
      ∧ (chunkAt files c i).high ≤ files.length
      ∧ goSlice files (chunkAt files c i).low (chunkAt files c i).high
          = some (chunkAt files c i).files := by
  have h1 : i ≤ (i + 2) * c := by nlinarith
  refine ⟨?_, ?_, ?_⟩
  · simp only [chunkAt]; omega
  · simp only [chunkAt]; omega
  · have hle : i ≤ min ((i + 2) * c) files.length := by omega
    simp [chunkAt, goSlice, hle]

theorem coverCount_map (files : List Path) (c j : Nat) (l : List Nat) :
    coverCount (l.map (chunkAt files c)) j
      = (l.filter (fun i => decide (i ≤ j ∧ j < min ((i + 2) * c) files.length))).length := by
  simp only [coverCount, List.filter_map, List.length_map]
  rfl

theorem chunks_single (files : List Path) (c : Nat) (hc : 1 ≤ c) (h : files.length < 2 * c) :
    chunks files c = some [⟨0, files.length, files⟩] := by
  rw [chunks_eq files c hc, iterations_eq_one _ _ hc h]
  have hmin : min (2 * c) files.length = files.length := by omega
  have hr : List.range 1 = [0] := rfl
  simp [chunkAt, hmin, hr]

theorem coverCount_single (files : List Path) (j : Nat) (hj : j < files.length) :
    coverCount [⟨0, files.length, files⟩] j = 1 := by
  simp [coverCount, hj]

theorem coverCount_one_eq_two (files : List Path) (c : Nat) (hc : 1 ≤ c)
    (h : 2 * c ≤ files.length) :
    coverCount ((List.range (iterations files.length c)).map (chunkAt files c)) 1 = 2 := by
  obtain ⟨m, hm⟩ : ∃ m, iterations files.length c = m + 2 :=
    ⟨iterations files.length c - 2, by have := two_le_iterations _ _ hc h; omega⟩
  rw [coverCount_map, hm, List.range_eq_range', List.range'_succ, List.range'_succ]
  have h0 : (1 : Nat) < min ((0 + 2) * c) files.length := by omega
  have h1 : (1 : Nat) < min ((0 + 1 + 2) * c) files.length := by omega
  have hrest : (List.range' (0 + 1 + 1) m).filter
      (fun i => decide (i ≤ 1 ∧ 1 < min ((i + 2) * c) files.length)) = [] := by
    rw [List.filter_eq_nil_iff]
    intro i hi
    rw [List.mem_range'_1] at hi
    simp only [decide_eq_true_eq, not_and]
    omega
  rw [List.filter_cons_of_pos (by simpa using h0), List.filter_cons_of_pos (by simpa using h1),
    hrest]
  rfl

theorem covered (files : List Path) (c j : Nat) (hc : 1 ≤ c) (hj : j < files.length) :
    ∃ i, i < iterations files.length c ∧ i ≤ j ∧ j < min ((i + 2) * c) files.length := by
  have hk := lt_succ_iterations_mul files.length c hc
  have hpos : 1 ≤ iterations files.length c := by rw [iterations_eq_max]; omega
  by_cases hjk : j < iterations files.length c
  · refine ⟨j, hjk, le_refl _, ?_⟩
    have : j < (j + 2) * c := by nlinarith
    omega
  · refine ⟨iterations files.length c - 1, by omega, by omega, ?_⟩
    have : iterations files.length c - 1 + 2 = iterations files.length c + 1 := by omega
    rw [this]
    omega

/-! ### Lemmas on the goroutines -/

theorem forall₂_set {α β : Type} {R : α → β → Prop} {l₁ : List α} {l₂ : List β}
    (h : List.Forall₂ R l₁ l₂) (k : Nat) (w w' : β) (hw : l₂[k]? = some w)
    (hk : ∀ a, R a w → R a w') : List.Forall₂ R l₁ (l₂.set k w') := by
  induction h generalizing k with
  | nil => simp
  | cons hab _ ih =>
    cases k with
    | zero =>
      simp only [List.getElem?_cons_zero, Option.some.injEq] at hw
      subst hw
      exact List.Forall₂.cons (hk _ hab) (by assumption)
    | succ k =>
      simp only [List.getElem?_cons_succ] at hw
      exact List.Forall₂.cons hab (ih k hw)

theorem sum_map_set {β : Type} (f : β → Nat) (l : List β) (k : Nat) (w w' : β)
    (hw : l[k]? = some w) :
    ((l.set k w').map f).sum + f w = (l.map f).sum + f w' := by
  induction l generalizing k with
  | nil => simp at hw
  | cons b bs ih =>
    cases k with
    | zero =>
      simp only [List.getElem?_cons_zero, Option.some.injEq] at hw
      subst hw
      simp only [List.set_cons_zero, List.map_cons, List.sum_cons]
      omega
    | succ k =>
      simp only [List.getElem?_cons_succ] at hw
      have := ih k hw
      simp only [List.set_cons_succ, List.map_cons, List.sum_cons]
      omega

theorem sum_map_forall₂ {α β : Type} (f : α → Nat) (g : β → Nat) {l₁ : List α} {l₂ : List β}
    (h : List.Forall₂ (fun a b => g b = f a) l₁ l₂) : (l₂.map g).sum = (l₁.map f).sum := by
  induction h with
  | nil => rfl
  | cons hab _ ih => simp [hab, ih]

theorem sumCounts_append (fsOpen : Path → OpenResult) (l₁ l₂ : List Path) :
    sumCounts fsOpen (l₁ ++ l₂) = sumCounts fsOpen l₁ + sumCounts fsOpen l₂ := by
  simp [sumCounts]

theorem sumCounts_single_ok (fsOpen : Path → OpenResult) (f : Path) (lc : Nat)
    (h : countLines fsOpen f = .ok lc) : sumCounts fsOpen [f] = lc := by
  simp [sumCounts, h]

theorem readable_of_ok (fsOpen : Path → OpenResult) (f : Path) (lc : Nat)
    (h : countLines fsOpen f = .ok lc) : readable fsOpen f = true := by
  simp [readable, h]

theorem not_readable_of_error (fsOpen : Path → OpenResult) (f : Path) (e : IOErr)
    (h : countLines fsOpen f = .error e) : readable fsOpen f = false := by
  simp [readable, h]

theorem forall₂_getElem? {α β : Type} {R : α → β → Prop} {l₁ : List α} {l₂ : List β}
    (h : List.Forall₂ R l₁ l₂) (k : Nat) (w : β) (hw : l₂[k]? = some w) :
    ∃ a, l₁[k]? = some a ∧ R a w := by
  induction h generalizing k with
  | nil => simp at hw
  | cons hab _ ih =>
    cases k with
    | zero =>
      simp only [List.getElem?_cons_zero, Option.some.injEq] at hw
      subst hw
      exact ⟨_, by simp, hab⟩
    | succ k =>
      simp only [List.getElem?_cons_succ] at hw
      simpa using ih k hw

theorem mem_set_cases {β : Type} {l : List β} {k : Nat} {w' x : β} (hx : x ∈ l.set k w') :
    x ∈ l ∨ x = w' :=
  List.mem_or_eq_of_mem_set hx

theorem runInv_start (fsOpen : Path → OpenResult) (cs : List Chunk) :
    RunInv fsOpen cs (RunState.start cs) := by
  refine ⟨?_, ?_, ?_, ?_⟩
  · simp only [RunState.start]
    induction cs with
    | nil => exact List.Forall₂.nil
    | cons ch rest ih =>
      refine List.Forall₂.cons ?_ ih
      exact ⟨[], by simp, by simp, by simp [sumCounts]⟩
  · intro w hw e he
    simp only [RunState.start, List.mem_map] at hw
    obtain ⟨ch, _, rfl⟩ := hw
    simp at he
  · intro h
    simp [RunState.start] at h
  · simp only [RunState.start, List.map_map]
    induction cs with
    | nil => rfl
    | cons ch rest ih => simpa [contrib] using ih

theorem runInv_step (fsOpen : Path → OpenResult) (cs : List Chunk) (s : RunState) (k : Nat)
    (h : RunInv fsOpen cs s) : RunInv fsOpen cs (step fsOpen s k) := by
  obtain ⟨h1, h2, h3, h4⟩ := h
  unfold step
  split
  · exact ⟨h1, h2, h3, h4⟩
  · rename_i w hw
    split
    · exact ⟨h1, h2, h3, h4⟩
    · rename_i hret
      have hc0 : contrib w = 0 := by simp [contrib, hret]
      split
      · -- the files are through
        rename_i htodo
        refine ⟨?_, ?_, h3, ?_⟩
        · refine forall₂_set h1 k w _ hw (fun a ha => ?_)
          simp only [WorkerInv, hret, htodo, List.append_nil] at ha ⊢
          obtain ⟨done, rfl, hd, hs⟩ := ha
          exact ⟨hd, hs⟩
        · intro x hx e he
          rcases mem_set_cases hx with hx | rfl
          · exact h2 x hx e he
          · simp at he
        · have := sum_map_set contrib s.workers k w { w with ret := some none } hw
          simp only [contrib] at this hc0 ⊢
          simp only [hc0] at this
          simp only [h4, contrib]
          omega
      · rename_i fileName rest htodo
        split
        · split
          · -- countLines fails
            rename_i hchk e hcl
            have hne : (match s.egErr with
                | none => some e
                | some first => some first) ≠ none := by
              cases s.egErr <;> simp
            refine ⟨?_, ?_, ?_, ?_⟩
            · refine forall₂_set h1 k w _ hw (fun a _ => ?_)
              simp [WorkerInv]
            · intro x _ _ _
              exact hne
            · intro _
              cases heg : s.egErr with
              | some first => exact h3 (by simp [heg])
              | none =>
                obtain ⟨ch, hch, hinv⟩ := forall₂_getElem? h1 k w hw
                simp only [WorkerInv, hret, htodo] at hinv
                obtain ⟨done, hfiles, _, _⟩ := hinv
                refine ⟨ch, List.getElem?_mem hch, fileName, ?_,
                  not_readable_of_error fsOpen fileName e hcl⟩
                rw [hfiles]
                simp
            · have := sum_map_set contrib s.workers k w { w with ret := some (some e) } hw
              simp only [contrib] at this hc0 ⊢
              simp only [hc0] at this
              simp only [h4, contrib]
              omega
          · -- countLines succeeds
            rename_i hchk lc hcl
            refine ⟨?_, ?_, h3, ?_⟩
            · refine forall₂_set h1 k w _ hw (fun a ha => ?_)
              simp only [WorkerInv, hret, htodo] at ha ⊢
              obtain ⟨done, hfiles, hd, hs⟩ := ha
              refine ⟨done ++ [fileName], by simp [hfiles], ?_, ?_⟩
              · intro f hf
                rcases List.mem_append.1 hf with hf | hf
                · exact hd f hf
                · rw [List.mem_singleton.1 hf]
                  exact readable_of_ok fsOpen fileName lc hcl
              · rw [sumCounts_append, sumCounts_single_ok fsOpen fileName lc hcl, hs]
            · intro x hx e he
              rcases mem_set_cases hx with hx | rfl
              · exact h2 x hx e he
              · simp at he
            · have := sum_map_set contrib s.workers k w ⟨rest, false, w.sub + lc, none⟩ hw
              simp only [contrib] at this hc0 ⊢
              simp only [hc0] at this
              simp only [h4, contrib]
              omega
        · split
          · -- the context is cancelled
            rename_i hchk first heg
            refine ⟨?_, ?_, h3, ?_⟩
            · refine forall₂_set h1 k w _ hw (fun a _ => ?_)
              simp [WorkerInv]
            · intro x _ _ _
              simp [heg]
            · have := sum_map_set contrib s.workers k w
                { w with ret := some (some .cancelled) } hw
              simp only [contrib] at this hc0 ⊢
              simp only [hc0] at this
              simp only [h4, contrib]
              omega
          · -- the context is live
            rename_i hchk heg
            refine ⟨?_, ?_, h3, ?_⟩
            · refine forall₂_set h1 k w _ hw (fun a ha => ?_)
              simpa only [WorkerInv, hret, htodo] using ha
            · intro x hx e he
              rcases mem_set_cases hx with hx | rfl
              · exact h2 x hx e he
              · simp [hret] at he
            · have := sum_map_set contrib s.workers k w { w with checked := true } hw
              simp only [contrib] at this hc0 ⊢
              simp only [hc0] at this
              simp only [h4, contrib]
              omega

theorem runInv_exec (fsOpen : Path → OpenResult) (cs : List Chunk) (sched : List Nat) :
    ∀ s, RunInv fsOpen cs s → RunInv fsOpen cs (exec fsOpen s sched) := by
  induction sched with
  | nil => intro s h; exact h
  | cons k rest ih =>
    intro s h
    exact ih _ (runInv_step fsOpen cs s k h)

theorem step_length (fsOpen : Path → OpenResult) (s : RunState) (k : Nat) :
    (step fsOpen s k).workers.length = s.workers.length := by
  unfold step
  repeat' split
  all_goals simp only [List.length_set]

theorem exec_length (fsOpen : Path → OpenResult) (sched : List Nat) :
    ∀ s : RunState, (exec fsOpen s sched).workers.length = s.workers.length := by
  induction sched with
  | nil => intro s; rfl
  | cons k rest ih =>
    intro s
    simp only [exec, List.foldl_cons]
    exact (ih (step fsOpen s k)).trans (step_length fsOpen s k)

/-! ### Every goroutine returns -/

theorem stepsLeft_set (l : List Worker) (j k : Nat) (w w₁ w' : Worker) (hw : l[j]? = some w)
    (hlt : stepsLeft w₁ + 1 ≤ stepsLeft w) (h : (l.set j w₁)[k]? = some w') :
    ∃ w₀, l[k]? = some w₀ ∧ stepsLeft w' ≤ stepsLeft w₀ - (if k = j then 1 else 0) := by
  rw [List.getElem?_set] at h
  by_cases hjk : j = k
  · subst hjk
    simp only [if_true] at h
    split at h
    · simp only [Option.some.injEq] at h
      subst h
      exact ⟨w, hw, by simp only [if_true]; omega⟩
    · simp at h
  · simp only [hjk, if_false] at h
    have hkj : ¬ k = j := fun e => hjk e.symm
    exact ⟨w', h, by simp [hkj]⟩

theorem step_stepsLeft (fsOpen : Path → OpenResult) (s : RunState) (j k : Nat) (w' : Worker)
    (h : (step fsOpen s j).workers[k]? = some w') :
    ∃ w, s.workers[k]? = some w ∧ stepsLeft w' ≤ stepsLeft w - (if k = j then 1 else 0) := by
  unfold step at h
  split at h
  · rename_i hw
    refine ⟨w', h, ?_⟩
    have : ¬ k = j := by
      intro e
      subst e
      simp [hw] at h
    simp [this]
  · rename_i w hw
    split at h
    · rename_i e hret
      refine ⟨w', h, ?_⟩
      by_cases hkj : k = j
      · subst hkj
        have : w' = w := by simpa [hw] using h.symm
        subst this
        simp [stepsLeft, hret]
      · simp [hkj]
    · rename_i hret
      have hsl : stepsLeft w = 2 * w.todo.length + 1 + (if w.checked then 0 else 1) := by
        simp [stepsLeft, hret]
      split at h
      · rename_i htodo
        exact stepsLeft_set _ j k w _ w' hw (by rw [hsl]; simp only [stepsLeft]; omega) h
      · rename_i fileName rest htodo
        split at h
        · rename_i hchk
          split at h
          · exact stepsLeft_set _ j k w _ w' hw (by rw [hsl]; simp only [stepsLeft]; omega) h
          · exact stepsLeft_set _ j k w _ w' hw
              (by rw [hsl]; simp [stepsLeft, htodo, hchk]; omega) h
        · rename_i hchk
          split at h
          · exact stepsLeft_set _ j k w _ w' hw (by rw [hsl]; simp only [stepsLeft]; omega) h
          · exact stepsLeft_set _ j k w _ w' hw
              (by rw [hsl]; simp [stepsLeft, htodo, hchk, hret]) h

theorem exec_finished (fsOpen : Path → OpenResult) (sched : List Nat) :
    ∀ s : RunState, (∀ k w, s.workers[k]? = some w → stepsLeft w ≤ sched.count k) →
      (exec fsOpen s sched).finished = true := by
  induction sched with
  | nil =>
    intro s h
    simp only [exec, List.foldl_nil, RunState.finished, List.all_eq_true]
    intro w hw
    obtain ⟨k, hk⟩ := List.mem_iff_getElem?.1 hw
    have := h k w hk
    simp only [List.count_nil, Nat.le_zero, stepsLeft] at this
    split at this
    · rename_i heq; simp [heq]
    · omega
  | cons j rest ih =>
    intro s h
    simp only [exec, List.foldl_cons]
    refine ih (step fsOpen s j) (fun k w' hw' => ?_)
    obtain ⟨w, hw, hle⟩ := step_stepsLeft fsOpen s j k w' hw'
    have := h k w hw
    rw [List.count_cons] at this
    by_cases hkj : k = j
    · subst hkj
      simp only [beq_self_eq_true, if_true] at this hle
      omega
    · have hjk : ¬ j = k := fun e => hkj e.symm
      simp only [hkj, if_false] at hle
      simp only [beq_iff_eq, hjk, if_false] at this
      omega

theorem count_roundRobin (k n rounds : Nat) (hk : k < n) :
    (roundRobin n rounds).count k = rounds := by
  induction rounds with
  | zero => simp [roundRobin]
  | succ r ih =>
    have h1 : (List.range n).count k = 1 :=
      List.count_eq_one_of_mem (List.nodup_range n) (List.mem_range.2 hk)
    simp only [roundRobin] at ih ⊢
    rw [List.replicate_succ, List.flatten_cons, List.count_append, ih, h1]
    omega

/-! ### The result of the counting run -/

theorem chunkAt_files_subset (files : List Path) (c i : Nat) (f : Path)
    (hf : f ∈ (chunkAt files c i).files) : f ∈ files :=
  List.mem_of_mem_take (List.mem_of_mem_drop hf)

theorem chunkAt_files_length (files : List Path) (c i : Nat) :
    (chunkAt files c i).files.length ≤ files.length := by
  simp only [chunkAt, List.length_drop, List.length_take]
  omega

theorem mem_slice {α : Type} (l : List α) (i e j : Nat) (hij : i ≤ j) (hje : j < e)
    (hj : j < l.length) : l[j] ∈ (l.take e).drop i := by
  refine List.mem_iff_getElem?.2 ⟨j - i, ?_⟩
  rw [List.getElem?_drop, List.getElem?_take]
  have : i + (j - i) = j := by omega
  simp [this, hje, hj]

theorem mem_some_chunk (files : List Path) (c : Nat) (hc : 1 ≤ c) (f : Path) (hf : f ∈ files) :
    ∃ ch ∈ (List.range (iterations files.length c)).map (chunkAt files c), f ∈ ch.files := by
  obtain ⟨j, hj, rfl⟩ := List.mem_iff_getElem.1 hf
  obtain ⟨i, hi, hij, hje⟩ := covered files c j hc hj
  refine ⟨chunkAt files c i, List.mem_map.2 ⟨i, List.mem_range.2 hi, rfl⟩, ?_⟩
  exact mem_slice files i _ j hij hje hj

theorem forall₂_mem_left {α β : Type} {R : α → β → Prop} {l₁ : List α} {l₂ : List β}
    (h : List.Forall₂ R l₁ l₂) (a : α) (ha : a ∈ l₁) : ∃ b ∈ l₂, R a b := by
  induction h with
  | nil => simp at ha
  | cons hab _ ih =>
    rcases List.mem_cons.1 ha with rfl | ha
    · exact ⟨_, List.mem_cons_self _ _, hab⟩
    · obtain ⟨b, hb, hR⟩ := ih ha
      exact ⟨b, List.mem_cons_of_mem _ hb, hR⟩

theorem workers_returned_nil (fsOpen : Path → OpenResult) {cs : List Chunk} {ws : List Worker}
    (h : List.Forall₂ (fun ch w => WorkerInv fsOpen ch.files w) cs ws)
    (hall : ∀ w ∈ ws, w.ret = some none) :
    List.Forall₂ (fun ch w => (∀ f ∈ ch.files, readable fsOpen f = true)
      ∧ contrib w = sumCounts fsOpen ch.files) cs ws := by
  induction h with
  | nil => exact List.Forall₂.nil
  | cons hab _ ih =>
    rename_i ch w l₁ l₂ _
    have hw : w.ret = some none := hall w (List.mem_cons_self _ _)
    refine List.Forall₂.cons ?_ (ih (fun x hx => hall x (List.mem_cons_of_mem _ hx)))
    simp only [WorkerInv, hw] at hab
    exact ⟨hab.1, by simp [contrib, hw, hab.2]⟩

theorem finished_ok_workers (fsOpen : Path → OpenResult) (cs : List Chunk) (s : RunState)
    (hinv : RunInv fsOpen cs s) (hfin : s.finished = true) (herr : s.egErr = none) :
    (∀ ch ∈ cs, ∀ f ∈ ch.files, readable fsOpen f = true)
      ∧ s.totalLoc = (cs.map (fun ch => sumCounts fsOpen ch.files)).sum := by
  obtain ⟨h1, h2, _, h4⟩ := hinv
  have hall : ∀ w ∈ s.workers, w.ret = some none := by
    intro w hw
    have hsome := (List.all_eq_true.1 hfin) w hw
    cases hr : w.ret with
    | none => simp [hr] at hsome
    | some r =>
      cases r with
      | none => rfl
      | some e => exact absurd herr (h2 w hw e hr)
  have h1' := workers_returned_nil fsOpen h1 hall
  constructor
  · intro ch hch
    obtain ⟨w, _, hw⟩ := forall₂_mem_left h1' ch hch
    exact hw.1
  · rw [h4]
    exact sum_map_forall₂ (fun ch => sumCounts fsOpen ch.files) contrib
      (h1'.imp (fun _ _ h => h.2))

/-- The three ways the counting run can end, for any schedule: the schedule was
too short, or an error is reported and some file is unreadable, or the summary
is printed, every file is readable, and the total is the sum over the chunks. -/
theorem run_result (fsOpen : Path → OpenResult) (files : List Path) (c : Nat) (hc : 1 ≤ c)
    (sched : List Nat) :
    countTotalLines fsOpen files c sched = .running
      ∨ ((∃ e, countTotalLines fsOpen files c sched = .failed e)
          ∧ ∃ f ∈ files, readable fsOpen f = false)
      ∨ (countTotalLines fsOpen files c sched
            = .summary (chunkTotal fsOpen files c (iterations files.length c))
                (iterations files.length c)
          ∧ ∀ f ∈ files, readable fsOpen f = true) := by
  have hinv := runInv_exec fsOpen _ sched _
    (runInv_start fsOpen ((List.range (iterations files.length c)).map (chunkAt files c)))
  simp only [countTotalLines, chunks_eq files c hc]
  split
  · rename_i hfin
    split
    · rename_i e heg
      right; left
      refine ⟨⟨e, rfl⟩, ?_⟩
      obtain ⟨ch, hch, f, hf, hbad⟩ := hinv.2.2.1 (by simp [heg])
      obtain ⟨i, _, rfl⟩ := List.mem_map.1 hch
      exact ⟨f, chunkAt_files_subset files c i f hf, hbad⟩
    · rename_i heg
      right; right
      obtain ⟨hread, htot⟩ := finished_ok_workers fsOpen _ _ hinv hfin heg
      constructor
      · rw [htot]
        simp [chunkTotal, List.map_map, Function.comp_def]
      · intro f hf
        obtain ⟨ch, hch, hfch⟩ := mem_some_chunk files c hc f hf
        exact hread ch hch f hfch
  · left; rfl

/-- A schedule with enough steps for every goroutine ends the run. -/
theorem run_ends (fsOpen : Path → OpenResult) (files : List Path) (c : Nat) (hc : 1 ≤ c)
    (sched : List Nat) (hs : enoughSteps files c sched) :
    countTotalLines fsOpen files c sched ≠ .running := by
  have hfin : (exec fsOpen (RunState.start
      ((List.range (iterations files.length c)).map (chunkAt files c))) sched).finished
        = true := by
    refine exec_finished fsOpen sched _ (fun k w hw => ?_)
    simp only [RunState.start, List.map_map, List.getElem?_map, Option.map_eq_some'] at hw
    obtain ⟨i, hi, rfl⟩ := hw
    have hk : k < iterations files.length c := by
      have := (List.getElem?_eq_some.1 hi).1
      simpa using this
    have hi' : i = k := by
      have := (List.getElem?_eq_some.1 hi).2
      simpa using this.symm
    subst hi'
    have hlen := chunkAt_files_length files c i
    have := hs i hk
    simp only [stepsLeft, Function.comp] at this ⊢
    simp only [Bool.false_eq_true, if_false]
    omega
  simp only [countTotalLines, chunks_eq files c hc, hfin, if_true]
  split <;> simp

theorem run_summary (fsOpen : Path → OpenResult) (files : List Path) (c : Nat) (hc : 1 ≤ c)
    (sched : List Nat) (t k : Nat) (h : countTotalLines fsOpen files c sched = .summary t k) :
    t = chunkTotal fsOpen files c (iterations files.length c) ∧ k = iterations files.length c
      ∧ ∀ f ∈ files, readable fsOpen f = true := by
  rcases run_result fsOpen files c hc sched with hr | ⟨⟨e, he⟩, _⟩ | ⟨hs, hread⟩
  · rw [hr] at h; cases h
  · rw [he] at h; cases h
  · rw [hs] at h
    cases h
    exact ⟨rfl, rfl, hread⟩

theorem run_readable (fsOpen : Path → OpenResult) (files : List Path) (c : Nat) (hc : 1 ≤ c)
    (sched : List Nat) (hs : enoughSteps files c sched)
    (hread : ∀ f ∈ files, readable fsOpen f = true) :
    countTotalLines fsOpen files c sched
      = .summary (chunkTotal fsOpen files c (iterations files.length c))
          (iterations files.length c) := by
  rcases run_result fsOpen files c hc sched with hr | ⟨_, f, hf, hbad⟩ | ⟨hsum, _⟩
  · exact absurd hr (run_ends fsOpen files c hc sched hs)
  · rw [hread f hf] at hbad; cases hbad
  · exact hsum

theorem run_unreadable (fsOpen : Path → OpenResult) (files : List Path) (c : Nat) (hc : 1 ≤ c)
    (sched : List Nat) (hs : enoughSteps files c sched)
    (f : Path) (hf : f ∈ files) (hbad : readable fsOpen f = false) :
    ∃ e, countTotalLines fsOpen files c sched = .failed e := by
  rcases run_result fsOpen files c hc sched with hr | ⟨he, _⟩ | ⟨_, hread⟩
  · exact absurd hr (run_ends fsOpen files c hc sched hs)
  · exact he
  · rw [hread f hf] at hbad; cases hbad

theorem enoughSteps_roundRobin (files : List Path) (c : Nat) :
    enoughSteps files c (roundRobin (iterations files.length c) (2 * files.length + 2)) := by
  intro k hk
  rw [count_roundRobin k _ _ hk]

/-! ### The total over the chunks -/

theorem sumCounts_take_mono (fsOpen : Path → OpenResult) (l : List Path) (a b : Nat)
    (hab : a ≤ b) : sumCounts fsOpen (l.take a) ≤ sumCounts fsOpen (l.take b) := by
  have h : l.take b = l.take a ++ (l.take b).drop a := by
    have := List.take_append_drop a (l.take b)
    rw [List.take_take, Nat.min_eq_left hab] at this
    exact this.symm
  rw [h, sumCounts_append]
  omega

theorem chunkTotal_succ (fsOpen : Path → OpenResult) (files : List Path) (c m : Nat) :
    chunkTotal fsOpen files c (m + 1)
      = chunkTotal fsOpen files c m + sumCounts fsOpen (chunkAt files c m).files := by
  simp [chunkTotal, List.range_succ]

theorem chunkTotal_ge_take (fsOpen : Path → OpenResult) (files : List Path) (c : Nat)
    (hc : 1 ≤ c) :
    ∀ m, m + 1 ≤ iterations files.length c →
      sumCounts fsOpen (files.take (min ((m + 2) * c) files.length))
        ≤ chunkTotal fsOpen files c (m + 1) := by
  intro m
  induction m with
  | zero =>
    intro _
    have hr : List.range 1 = [0] := rfl
    simp [chunkTotal, chunkAt, hr]
  | succ m ih =>
    intro hm
    have hih := ih (by omega)
    rw [chunkTotal_succ]
    have hn : 1 ≤ files.length := by
      by_contra hn0
      have : iterations files.length c = 1 := iterations_eq_one _ _ hc (by omega)
      omega
    have hk := iterations_le_of_pos files.length c hn
    have h1 : m + 1 ≤ (m + 2) * c := by nlinarith
    have h2 : m + 1 ≤ (m + 1 + 2) * c := by nlinarith
    have hsplit := List.take_append_drop (m + 1) (files.take (min ((m + 1 + 2) * c) files.length))
    rw [List.take_take, Nat.min_eq_left (by omega)] at hsplit
    have hmono := sumCounts_take_mono fsOpen files (m + 1) (min ((m + 2) * c) files.length)
      (by omega)
    have hsum := congrArg (sumCounts fsOpen) hsplit
    rw [sumCounts_append] at hsum
    simp only [chunkAt]
    omega

theorem chunkTotal_ge (fsOpen : Path → OpenResult) (files : List Path) (c : Nat) (hc : 1 ≤ c) :
    sumCounts fsOpen files ≤ chunkTotal fsOpen files c (iterations files.length c) := by
  have hpos : 1 ≤ iterations files.length c := by rw [iterations_eq_max]; omega
  have h := chunkTotal_ge_take fsOpen files c hc (iterations files.length c - 1) (by omega)
  have hk := lt_succ_iterations_mul files.length c hc
  have e1 : iterations files.length c - 1 + 1 = iterations files.length c := by omega
  have e2 : iterations files.length c - 1 + 2 = iterations files.length c + 1 := by omega
  rw [e1, e2, Nat.min_eq_right (by omega), List.take_length] at h
  exact h

theorem chunkTotal_single (fsOpen : Path → OpenResult) (files : List Path) (c : Nat)
    (hc : 1 ≤ c) (h : files.length < 2 * c) :
    chunkTotal fsOpen files c (iterations files.length c) = sumCounts fsOpen files := by
  rw [iterations_eq_one _ _ hc h]
  have hmin : min (2 * c) files.length = files.length := by omega
  have hr : List.range 1 = [0] := rfl
  simp [chunkTotal, chunkAt, hmin, hr]

theorem chunkTotal_two (fsOpen : Path → OpenResult) (files : List Path) (c : Nat)
    (h : files.length = 2 * c) :
    chunkTotal fsOpen files c 2 = sumCounts fsOpen files + sumCounts fsOpen (files.drop 1) := by
  have hmin0 : min (2 * c) files.length = files.length := by omega
  have hmin1 : min (3 * c) files.length = files.length := by omega
  simp [chunkTotal, chunkAt, List.range_succ, hmin0, hmin1]

/-! ### Concrete filesystems -/

theorem countLines_deliver (fsOpen : Path → OpenResult) (f : Path) (blocks : List (List Byte))
    (hopen : fsOpen f = deliver blocks) (hsize : ∀ b ∈ blocks, b.length ≤ bufSize) :
    countLines fsOpen f = .ok (blocks.flatten.count newLine) := by
  simp only [countLines, hopen, deliver]
  rw [readLoop_deliver blocks hsize 0, Nat.zero_add]

theorem countLines_oneLine (f : Path) : countLines oneLineFiles f = .ok 1 := by
  rw [countLines_deliver oneLineFiles f [[newLine]] rfl (by simp [bufSize])]
  rfl

theorem readable_oneLine (f : Path) : readable oneLineFiles f = true :=
  readable_of_ok _ f 1 (countLines_oneLine f)

theorem sumCounts_oneLine (l : List Path) : sumCounts oneLineFiles l = l.length := by
  induction l with
  | nil => rfl
  | cons f fs ih =>
    have h := sumCounts_append oneLineFiles [f] fs
    rw [List.singleton_append, sumCounts_single_ok _ f 1 (countLines_oneLine f), ih] at h
    rw [h, List.length_cons]
    omega

theorem length_manyFiles (n : Nat) : (manyFiles n).length = n := by
  simp [manyFiles]

theorem logicalLinesFrom_open (l : List Byte) :
    ∀ (inLine : Bool) (hne : l ≠ []), l.getLast hne ≠ newLine →
      logicalLinesFrom inLine l = l.count newLine + 1 := by
  induction l with
  | nil => intro _ hne; exact absurd rfl hne
  | cons b bs ih =>
    intro inLine _ hlast
    cases bs with
    | nil =>
      simp only [List.getLast_singleton] at hlast
      rw [logicalLinesFrom, if_neg hlast, List.count_cons_of_ne (fun e => hlast e.symm)]
      rfl
    | cons b' bs' =>
      rw [List.getLast_cons (by simp)] at hlast
      have h1 := ih false (by simp) hlast
      have h2 := ih true (by simp) hlast
      by_cases hb : b = newLine
      · subst hb
        rw [logicalLinesFrom, if_pos rfl, h1, List.count_cons_self]
        omega
      · rw [logicalLinesFrom, if_neg hb, h2, List.count_cons_of_ne (fun e => hb e.symm)]

/-! ## The claims on `countLines` and on the counting run -/

/-- C3: when `os.Open` succeeds and the content of the file arrives as successive
reads of at most 8192 bytes followed by end-of-input, `countLines` returns,
without an error, the number of bytes of the content equal to the newline byte;
so for a non-empty content that does not end in a newline the result is one
less than the number of logical lines, which is at least one. -/
theorem countLines_counts_newline_bytes (fsOpen : Path → OpenResult) (fileName : Path)
    (blocks : List (List Byte)) (hopen : fsOpen fileName = deliver blocks)
    (hsize : ∀ b ∈ blocks, b.length ≤ bufSize) :
    countLines fsOpen fileName = .ok (blocks.flatten.count newLine)
      ∧ ∀ hne : blocks.flatten ≠ [], blocks.flatten.getLast hne ≠ newLine →
          countLines fsOpen fileName = .ok (logicalLines blocks.flatten - 1)
            ∧ 1 ≤ logicalLines blocks.flatten := by
  have h := countLines_deliver fsOpen fileName blocks hopen hsize
  refine ⟨h, fun hne hlast => ?_⟩
  have hl := logicalLinesFrom_open blocks.flatten false hne hlast
  rw [h, logicalLines, hl]
  exact ⟨rfl, by omega⟩

/-- Witness of C3: the content `"a\nb"`, delivered as the blocks `"a\n"` and
`"b"`, has two logical lines and `countLines` yields 1. -/
theorem countLines_counts_newline_bytes_witness :
    ((fun _ => deliver [[97, 10], [98]]) ["a"] = deliver [[97, 10], [98]]
      ∧ ∀ b ∈ [[(97 : Byte), 10], [98]], b.length ≤ bufSize)
    ∧ countLines (fun _ => deliver [[97, 10], [98]]) ["a"] = .ok 1
    ∧ logicalLines [97, 10, 98] = 2 :=
  ⟨⟨rfl, by simp [bufSize]⟩,
    (countLines_counts_newline_bytes (fun _ => deliver [[97, 10], [98]]) ["a"]
      [[97, 10], [98]] rfl (by simp [bufSize])).1,
    by decide⟩

/-- C7: for a chunk size of at least 1 the number of rounds of the loop, which is
the number of chunks, of goroutines started, and the value printed as
`Iterations`, is `max 1 (n / chunkSize)` for `n` files: the loop never panics,
the goroutines keep that number under every schedule, every printed summary
shows it, every schedule that lets the goroutines finish ends the run in the
error branch or in a summary showing it, and when every file is readable it is a
summary. -/
theorem iterations_is_max (fsOpen : Path → OpenResult) (files : List Path) (c : Nat)
    (hc : 1 ≤ c) :
    iterations files.length c = max 1 (files.length / c)
      ∧ (∃ cs, chunks files c = some cs ∧ cs.length = max 1 (files.length / c)
          ∧ (RunState.start cs).workers.length = max 1 (files.length / c)
          ∧ ∀ sched, (exec fsOpen (RunState.start cs) sched).workers.length
              = max 1 (files.length / c))
      ∧ (∀ sched, countTotalLines fsOpen files c sched ≠ .panic)
      ∧ (∀ sched t k, countTotalLines fsOpen files c sched = .summary t k →
          k = max 1 (files.length / c))
      ∧ (∀ sched, enoughSteps files c sched →
          (∃ e, countTotalLines fsOpen files c sched = .failed e)
            ∨ ∃ t, countTotalLines fsOpen files c sched
                = .summary t (max 1 (files.length / c)))
      ∧ ((∀ f ∈ files, readable fsOpen f = true) → ∀ sched, enoughSteps files c sched →
          ∃ t, countTotalLines fsOpen files c sched
            = .summary t (max 1 (files.length / c))) := by
  have hsum : ∀ sched, enoughSteps files c sched →
      (∃ e, countTotalLines fsOpen files c sched = .failed e)
        ∨ ∃ t, countTotalLines fsOpen files c sched
            = .summary t (max 1 (files.length / c)) := by
    intro sched hs
    rcases run_result fsOpen files c hc sched with hr | ⟨he, _⟩ | ⟨hsm, _⟩
    · exact absurd hr (run_ends fsOpen files c hc sched hs)
    · exact Or.inl he
    · exact Or.inr ⟨_, by rw [hsm, iterations_eq_max]⟩
  refine ⟨iterations_eq_max _ _, ⟨_, chunks_eq files c hc, ?_, ?_, ?_⟩, ?_, ?_, hsum, ?_⟩
  · simp [iterations_eq_max]
  · simp [RunState.start, iterations_eq_max]
  · intro sched
    rw [exec_length]
    simp [RunState.start, iterations_eq_max]
  · intro sched hp
    rcases run_result fsOpen files c hc sched with hr | ⟨⟨e, he⟩, _⟩ | ⟨hsm, _⟩
    · rw [hr] at hp; cases hp
    · rw [he] at hp; cases hp
    · rw [hsm] at hp; cases hp
  · intro sched t k h
    rw [(run_summary fsOpen files c hc sched t k h).2.1, iterations_eq_max]
  · intro hread sched hs
    exact ⟨_, by rw [run_readable fsOpen files c hc sched hs hread, iterations_eq_max]⟩

/-- Witness of C7: five readable files and chunk size 2, the two goroutines
taking twelve steps each in turn: the summary is printed and shows two
iterations. -/
theorem iterations_is_max_witness :
    (1 ≤ 2 ∧ (∀ f ∈ manyFiles 5, readable oneLineFiles f = true)
      ∧ enoughSteps (manyFiles 5) 2 (roundRobin 2 12))
    ∧ iterations (manyFiles 5).length 2 = 2
    ∧ ∃ t, countTotalLines oneLineFiles (manyFiles 5) 2 (roundRobin 2 12) = .summary t 2 :=
  ⟨⟨by decide, fun f _ => readable_oneLine f, enoughSteps_roundRobin (manyFiles 5) 2⟩,
    (iterations_is_max oneLineFiles (manyFiles 5) 2 (by decide)).1,
    (iterations_is_max oneLineFiles (manyFiles 5) 2 (by decide)).2.2.2.2.2
      (fun f _ => readable_oneLine f) (roundRobin 2 12)
      (enoughSteps_roundRobin (manyFiles 5) 2)⟩

/-- C5: the run prints a total only if `countLines` succeeded on every file of
the list; if it fails on some file then no schedule of the goroutines leads to
the summary, and every schedule that lets the goroutines finish ends in the
error branch. -/
theorem unreadable_file_fails_run (fsOpen : Path → OpenResult) (files : List Path) (c : Nat)
    (hc : 1 ≤ c) :
    (∀ sched t k, countTotalLines fsOpen files c sched = .summary t k →
        ∀ f ∈ files, readable fsOpen f = true)
      ∧ ∀ f ∈ files, readable fsOpen f = false →
          (∀ sched t k, countTotalLines fsOpen files c sched ≠ .summary t k)
            ∧ ∀ sched, enoughSteps files c sched →
                ∃ e, countTotalLines fsOpen files c sched = .failed e := by
  refine ⟨fun sched t k h => (run_summary fsOpen files c hc sched t k h).2.2, ?_⟩
  intro f hf hbad
  refine ⟨fun sched t k h => ?_, fun sched hs => run_unreadable fsOpen files c hc sched hs f hf hbad⟩
  have := (run_summary fsOpen files c hc sched t k h).2.2 f hf
  rw [hbad] at this
  cases this

/-- Witness of C5: three files, the second of which cannot be opened. -/
theorem unreadable_file_fails_run_witness :
    (1 ≤ 2 ∧ ["repo", "locked"] ∈ [["repo", "a"], ["repo", "locked"], ["repo", "b"]]
      ∧ readable lockedFile ["repo", "locked"] = false
      ∧ enoughSteps [["repo", "a"], ["repo", "locked"], ["repo", "b"]] 2 (roundRobin 1 8))
    ∧ ∃ e, countTotalLines lockedFile [["repo", "a"], ["repo", "locked"], ["repo", "b"]] 2
        (roundRobin 1 8) = .failed e :=
  ⟨⟨by decide, by simp, by simp [readable, countLines, lockedFile],
      enoughSteps_roundRobin [["repo", "a"], ["repo", "locked"], ["repo", "b"]] 2⟩,
    ((unreadable_file_fails_run lockedFile [["repo", "a"], ["repo", "locked"], ["repo", "b"]] 2
      (by decide)).2 ["repo", "locked"] (by simp)
      (by simp [readable, countLines, lockedFile])).2 (roundRobin 1 8)
      (enoughSteps_roundRobin [["repo", "a"], ["repo", "locked"], ["repo", "b"]] 2)⟩

/-- C9: for a chunk size of at least 1 no slice expression panics: every chunk
has `low ≤ high ≤ len files` and is the slice `files[low:high]`; every index of
the file list lies in at least one chunk; hence a printed total is never less
than the sum of the newline counts of the files, and when every file is
readable a total is printed under every schedule that lets the goroutines
finish. -/
theorem slices_in_range_and_cover (fsOpen : Path → OpenResult) (files : List Path) (c : Nat)
    (hc : 1 ≤ c) :
    ∃ cs, chunks files c = some cs
      ∧ (∀ ch ∈ cs, ch.low ≤ ch.high ∧ ch.high ≤ files.length
          ∧ goSlice files ch.low ch.high = some ch.files)
      ∧ (∀ j, j < files.length → 1 ≤ coverCount cs j)
      ∧ (∀ sched t k, countTotalLines fsOpen files c sched = .summary t k →
          sumCounts fsOpen files ≤ t)
      ∧ ((∀ f ∈ files, readable fsOpen f = true) → ∀ sched, enoughSteps files c sched →
          ∃ t, countTotalLines fsOpen files c sched = .summary t cs.length
            ∧ sumCounts fsOpen files ≤ t) := by
  refine ⟨_, chunks_eq files c hc, ?_, ?_, ?_, ?_⟩
  · intro ch hch
    obtain ⟨i, hi, rfl⟩ := List.mem_map.1 hch
    have hi' := List.mem_range.1 hi
    have := iterations_le files.length c
    exact chunkAt_bounds files c i hc (by omega)
  · intro j hj
    obtain ⟨i, hi, hij, hje⟩ := covered files c j hc hj
    rw [coverCount_map]
    apply List.length_pos_of_mem (a := i)
    simp only [List.mem_filter, List.mem_range, decide_eq_true_eq]
    exact ⟨hi, hij, hje⟩
  · intro sched t k h
    rw [(run_summary fsOpen files c hc sched t k h).1]
    exact chunkTotal_ge fsOpen files c hc
  · intro hread sched hs
    refine ⟨_, ?_, chunkTotal_ge fsOpen files c hc⟩
    rw [run_readable fsOpen files c hc sched hs hread]
    simp

/-- Witness of C9: five files and chunk size 2. -/
theorem slices_in_range_and_cover_witness :
    1 ≤ 2 ∧ ∃ cs, chunks (manyFiles 5) 2 = some cs
      ∧ (∀ ch ∈ cs, ch.low ≤ ch.high ∧ ch.high ≤ (manyFiles 5).length
          ∧ goSlice (manyFiles 5) ch.low ch.high = some ch.files)
      ∧ (∀ j, j < (manyFiles 5).length → 1 ≤ coverCount cs j)
      ∧ (∀ sched t k, countTotalLines oneLineFiles (manyFiles 5) 2 sched = .summary t k →
          sumCounts oneLineFiles (manyFiles 5) ≤ t)
      ∧ ((∀ f ∈ manyFiles 5, readable oneLineFiles f = true) →
          ∀ sched, enoughSteps (manyFiles 5) 2 sched →
            ∃ t, countTotalLines oneLineFiles (manyFiles 5) 2 sched = .summary t cs.length
              ∧ sumCounts oneLineFiles (manyFiles 5) ≤ t) :=
  ⟨by decide, slices_in_range_and_cover oneLineFiles (manyFiles 5) 2 (by decide)⟩

/-- C10: for a chunk size of at least 1 every index of the file list lies in
exactly one chunk if and only if `len files < 2 * chunkSize`.  Below that bound
there is one chunk, the whole list, and a printed total is the sum of the
newline counts; from that bound on index 1 lies in two chunks.  With the chunk
size 100000 of `main` the total is the sum for fewer than 200000 files. -/
theorem exactly_once_iff (fsOpen : Path → OpenResult) (files : List Path) (c : Nat)
    (hc : 1 ≤ c) :
    (∃ cs, chunks files c = some cs
      ∧ ((∀ j, j < files.length → coverCount cs j = 1) ↔ files.length < 2 * c)
      ∧ (files.length < 2 * c → cs = [⟨0, files.length, files⟩])
      ∧ (2 * c ≤ files.length → 1 < files.length ∧ coverCount cs 1 = 2))
    ∧ (files.length < 2 * c →
        (∀ sched t k, countTotalLines fsOpen files c sched = .summary t k →
          t = sumCounts fsOpen files ∧ k = 1)
        ∧ ((∀ f ∈ files, readable fsOpen f = true) → ∀ sched, enoughSteps files c sched →
            countTotalLines fsOpen files c sched = .summary (sumCounts fsOpen files) 1))
    ∧ (files.length < 200000 →
        (∀ sched t k, countTotalLines fsOpen files builtinChunkSize sched = .summary t k →
          t = sumCounts fsOpen files)
        ∧ ((∀ f ∈ files, readable fsOpen f = true) →
            ∀ sched, enoughSteps files builtinChunkSize sched →
              countTotalLines fsOpen files builtinChunkSize sched
                = .summary (sumCounts fsOpen files) 1)) := by
  have key : ∀ c', 1 ≤ c' → files.length < 2 * c' →
      (∀ sched t k, countTotalLines fsOpen files c' sched = .summary t k →
          t = sumCounts fsOpen files ∧ k = 1)
        ∧ ((∀ f ∈ files, readable fsOpen f = true) → ∀ sched, enoughSteps files c' sched →
            countTotalLines fsOpen files c' sched = .summary (sumCounts fsOpen files) 1) := by
    intro c' hc' hlt
    constructor
    · intro sched t k h
      obtain ⟨ht, hk, _⟩ := run_summary fsOpen files c' hc' sched t k h
      rw [ht, hk, chunkTotal_single fsOpen files c' hc' hlt, iterations_eq_one _ _ hc' hlt]
      exact ⟨rfl, rfl⟩
    · intro hread sched hs
      rw [run_readable fsOpen files c' hc' sched hs hread,
        chunkTotal_single fsOpen files c' hc' hlt, iterations_eq_one _ _ hc' hlt]
  refine ⟨⟨_, chunks_eq files c hc, ⟨?_, ?_⟩, ?_, ?_⟩, key c hc, ?_⟩
  · intro hall
    by_contra hge
    have h2 := coverCount_one_eq_two files c hc (by omega)
    have h1 := hall 1 (by omega)
    omega
  · intro hlt j hj
    have hsingle := chunks_single files c hc hlt
    rw [chunks_eq files c hc] at hsingle
    rw [Option.some.inj hsingle]
    exact coverCount_single files j hj
  · intro hlt
    have hsingle := chunks_single files c hc hlt
    rw [chunks_eq files c hc] at hsingle
    exact Option.some.inj hsingle
  · intro hge
    exact ⟨by omega, coverCount_one_eq_two files c hc hge⟩
  · intro hlt
    have h := key builtinChunkSize (by decide) (by simpa [builtinChunkSize] using hlt)
    exact ⟨fun sched t k hs => (h.1 sched t k hs).1, h.2⟩

/-- Witness of C10: three files and chunk size 2. -/
theorem exactly_once_iff_witness :
    1 ≤ 2 ∧ ∃ cs, chunks (manyFiles 3) 2 = some cs
      ∧ ((∀ j, j < (manyFiles 3).length → coverCount cs j = 1) ↔ (manyFiles 3).length < 2 * 2)
      ∧ ((manyFiles 3).length < 2 * 2 → cs = [⟨0, (manyFiles 3).length, manyFiles 3⟩])
      ∧ (2 * 2 ≤ (manyFiles 3).length → 1 < (manyFiles 3).length ∧ coverCount cs 1 = 2) :=
  ⟨by decide, (exactly_once_iff oneLineFiles (manyFiles 3) 2 (by decide)).1⟩

/-! ### Where the loop departs from chunks of `chunkSize` files -/

theorem total_of_two_chunks (files : List Path) (c : Nat) (hc : 1 ≤ c)
    (h : files.length = 2 * c) :
    countTotalLines oneLineFiles files c (roundRobin 2 (2 * files.length + 2))
        = .summary (2 * files.length - 1) 2
      ∧ ∀ sched t k, countTotalLines oneLineFiles files c sched = .summary t k →
          t = 2 * files.length - 1 := by
  have hit : iterations files.length c = 2 := by
    rw [iterations_eq_max, h, Nat.mul_div_cancel _ (show 0 < c by omega)]
    rfl
  have htot : chunkTotal oneLineFiles files c 2 = 2 * files.length - 1 := by
    rw [chunkTotal_two oneLineFiles files c h, sumCounts_oneLine, sumCounts_oneLine,
      List.length_drop]
    omega
  constructor
  · have hs := enoughSteps_roundRobin files c
    rw [hit] at hs
    rw [run_readable oneLineFiles files c hc _ hs (fun f _ => readable_oneLine f), hit, htot]
  · intro sched t k hsum
    rw [(run_summary oneLineFiles files c hc sched t k hsum).1, hit, htot]

/-- C1 (the code departs from the claim): with two files of one newline each and
chunk size 1 the sum of the newline counts is 2, but the run prints the total 3,
whatever the schedule; with 200000 such files and the chunk size 100000 of
`main` the sum is 200000 and the printed total is 399999. -/
theorem total_counts_files_twice :
    sumCounts oneLineFiles [["a"], ["b"]] = 2
      ∧ countTotalLines oneLineFiles [["a"], ["b"]] 1 (roundRobin 2 6) = .summary 3 2
      ∧ (∀ sched t k, countTotalLines oneLineFiles [["a"], ["b"]] 1 sched = .summary t k →
          t = 3)
      ∧ sumCounts oneLineFiles (manyFiles 200000) = 200000
      ∧ countTotalLines oneLineFiles (manyFiles 200000) builtinChunkSize (roundRobin 2 400002)
          = .summary 399999 2
      ∧ (∀ sched t k,
          countTotalLines oneLineFiles (manyFiles 200000) builtinChunkSize sched
            = .summary t k → t = 399999) := by
  have hsmall := total_of_two_chunks [["a"], ["b"]] 1 (by decide) rfl
  have hbig := total_of_two_chunks (manyFiles 200000) builtinChunkSize (by decide)
    (by rw [length_manyFiles]; rfl)
  rw [length_manyFiles] at hbig
  refine ⟨by rw [sumCounts_oneLine]; rfl, hsmall.1, hsmall.2, ?_, hbig.1, hbig.2⟩
  rw [sumCounts_oneLine, length_manyFiles]

/-- C2 (the code departs from the claim): with two files and chunk size 1 the
chunks are `files[0:2]` and `files[1:2]`, so index 1 lies in two chunks; the same
holds for five files and chunk size 2, and for 200001 files and the chunk size
100000 of `main`. -/
theorem slices_overlap :
    chunks [["a"], ["b"]] 1 = some [⟨0, 2, [["a"], ["b"]]⟩, ⟨1, 2, [["b"]]⟩]
      ∧ coverCount [⟨0, 2, [["a"], ["b"]]⟩, ⟨1, 2, [["b"]]⟩] 1 = 2
      ∧ chunks [["a"], ["b"], ["c"], ["d"], ["e"]] 2
          = some [⟨0, 4, [["a"], ["b"], ["c"], ["d"]]⟩, ⟨1, 5, [["b"], ["c"], ["d"], ["e"]]⟩]
      ∧ coverCount [⟨0, 4, [["a"], ["b"], ["c"], ["d"]]⟩,
          ⟨1, 5, [["b"], ["c"], ["d"], ["e"]]⟩] 1 = 2
      ∧ ∃ cs, chunks (manyFiles 200001) builtinChunkSize = some cs ∧ coverCount cs 1 = 2 := by
  refine ⟨rfl, by decide, rfl, by decide, _, chunks_eq _ _ (by decide), ?_⟩
  exact coverCount_one_eq_two (manyFiles 200001) builtinChunkSize (by decide)
    (by rw [length_manyFiles]; decide)

/-- C8 (the code departs from the claim): with three files and chunk size 2 the
only chunk is `files[0:3]`, of length 3; with 100001 files and the chunk size
100000 of `main` the only chunk is the whole list, of length 100001. -/
theorem chunk_longer_than_chunkSize :
    chunks [["a"], ["b"], ["c"]] 2 = some [⟨0, 3, [["a"], ["b"], ["c"]]⟩]
      ∧ 2 < [["a"], ["b"], ["c"]].length
      ∧ chunks (manyFiles 100001) builtinChunkSize
          = some [⟨0, (manyFiles 100001).length, manyFiles 100001⟩]
      ∧ builtinChunkSize < (manyFiles 100001).length := by
  refine ⟨rfl, by decide, ?_, ?_⟩
  · exact chunks_single (manyFiles 100001) builtinChunkSize (by decide)
      (by rw [length_manyFiles]; decide)
  · rw [length_manyFiles]; decide


/-! ## `crawl` -/

/-! ### Lemmas on the tree -/

theorem lookup_append (root : Node) (a b : Path) :
    lookup root (a ++ b) = (lookup root a).bind (fun node => lookup node b) := by
  induction a generalizing root with
  | nil => rfl
  | cons n rest ih =>
    simp only [List.cons_append, lookup]
    cases root.child n with
    | none => rfl
    | some node => exact ih node

theorem mem_of_lookup {β : Type} (es : List (String × β)) (n : String) (v : β)
    (h : es.lookup n = some v) : (n, v) ∈ es := by
  induction es with
  | nil => simp at h
  | cons e rest ih =>
    obtain ⟨k, w⟩ := e
    rw [List.lookup_cons] at h
    split at h
    · rename_i hk
      simp only [Option.some.injEq] at h
      subst h
      have : n = k := by simpa using hk
      subst this
      exact List.mem_cons_self _ _
    · exact List.mem_cons_of_mem _ (ih h)

theorem lookup_of_mem {β : Type} (es : List (String × β)) (n : String) (v : β)
    (hnd : (es.map Prod.fst).Nodup) (h : (n, v) ∈ es) : es.lookup n = some v := by
  induction es with
  | nil => simp at h
  | cons e rest ih =>
    obtain ⟨k, w⟩ := e
    simp only [List.map_cons, List.nodup_cons, List.mem_map, not_exists, not_and] at hnd
    rw [List.lookup_cons]
    rcases List.mem_cons.1 h with heq | hmem
    · simp only [Prod.mk.injEq] at heq
      obtain ⟨rfl, rfl⟩ := heq
      simp
    · have hne : ¬ n = k := by
        intro e
        subst e
        exact hnd.1 (n, v) hmem rfl
      have : (n == k) = false := by simpa using hne
      rw [this]
      exact ih hnd.2 hmem

theorem accessible_of_mem (es : List (String × Node)) (h : accessibleList es = true)
    (e : String × Node) (he : e ∈ es) : e.2.accessible = true := by
  induction es with
  | nil => simp at he
  | cons x rest ih =>
    simp only [accessibleList, Bool.and_eq_true] at h
    rcases List.mem_cons.1 he with rfl | hmem
    · exact h.1
    · exact ih h.2 hmem

theorem wellNamed_of_mem (es : List (String × Node)) (h : wellNamedList es = true)
    (e : String × Node) (he : e ∈ es) : e.2.wellNamed = true := by
  induction es with
  | nil => simp at he
  | cons x rest ih =>
    simp only [wellNamedList, Bool.and_eq_true] at h
    rcases List.mem_cons.1 he with rfl | hmem
    · exact h.1
    · exact ih h.2 hmem

theorem height_of_mem (es : List (String × Node)) (e : String × Node) (he : e ∈ es) :
    e.2.height ≤ heightList es := by
  induction es with
  | nil => simp at he
  | cons x rest ih =>
    simp only [heightList]
    rcases List.mem_cons.1 he with rfl | hmem
    · exact Nat.le_max_left _ _
    · exact Nat.le_trans (ih hmem) (Nat.le_max_right _ _)

theorem child_mem (node : Node) (n : String) (ch : Node) (h : node.child n = some ch) :
    ∃ e l es, node = .dir e l es ∧ (n, ch) ∈ es := by
  cases node with
  | file => simp [Node.child] at h
  | dir e l es => exact ⟨e, l, es, rfl, mem_of_lookup es n ch h⟩

theorem lookup_accessible (p : Path) : ∀ (root node : Node), lookup root p = some node →
    root.accessible = true → node.accessible = true := by
  induction p with
  | nil =>
    intro root node h hacc
    simp only [lookup, Option.some.injEq] at h
    subst h
    exact hacc
  | cons n rest ih =>
    intro root node h hacc
    simp only [lookup] at h
    split at h
    · simp at h
    · rename_i ch hch
      obtain ⟨e, l, es, rfl, hmem⟩ := child_mem root n ch hch
      simp only [Node.accessible, Bool.and_eq_true] at hacc
      exact ih ch node h (accessible_of_mem es hacc.2 _ hmem)

theorem lookup_wellNamed (p : Path) : ∀ (root node : Node), lookup root p = some node →
    root.wellNamed = true → node.wellNamed = true := by
  induction p with
  | nil =>
    intro root node h hwn
    simp only [lookup, Option.some.injEq] at h
    subst h
    exact hwn
  | cons n rest ih =>
    intro root node h hwn
    simp only [lookup] at h
    split at h
    · simp at h
    · rename_i ch hch
      obtain ⟨e, l, es, rfl, hmem⟩ := child_mem root n ch hch
      simp only [Node.wellNamed, Bool.and_eq_true] at hwn
      exact ih ch node h (wellNamed_of_mem es hwn.2 _ hmem)

theorem lookup_dropLast (root : Node) (p : Path) (node : Node) (h : lookup root p = some node)
    (hdir : node.isDir = true) :
    ∃ e l es, lookup root p.dropLast = some (.dir e l es) := by
  rcases List.eq_nil_or_concat p with rfl | ⟨init, n, rfl⟩
  · simp only [lookup, Option.some.injEq] at h
    subst h
    cases root with
    | file => simp [Node.isDir] at hdir
    | dir e l es => exact ⟨e, l, es, rfl⟩
  · rw [List.concat_eq_append] at h ⊢
    rw [List.dropLast_concat]
    rw [lookup_append] at h
    cases hp : lookup root init with
    | none => simp [hp] at h
    | some parent =>
      simp only [hp, Option.some_bind, lookup] at h
      split at h
      · simp at h
      · rename_i ch hch
        obtain ⟨e, l, es, rfl, _⟩ := child_mem parent n ch hch
        exact ⟨e, l, es, rfl⟩

/-! ### The two loops of `crawl` -/

theorem scanEntries_eq (wd : Path) (es : List (String × Node)) :
    ∀ acc : Result, (∀ e ∈ es, e.1.data ≠ []) →
      scanEntries wd (es.map (fun e => ⟨e.1, e.2.isDir⟩)) acc
        = some ⟨acc.Dirs ++ (dirNames es).map (fun n => wd ++ [n]),
            acc.Files ++ (fileNames es).map (fun n => wd ++ [n])⟩ := by
  induction es with
  | nil => intro acc _; simp [scanEntries, dirNames, fileNames]
  | cons e rest ih =>
    intro acc hne
    have hrest : ∀ x ∈ rest, x.1.data ≠ [] := fun x hx => hne x (List.mem_cons_of_mem _ hx)
    have he := hne e (List.mem_cons_self _ _)
    obtain ⟨ch, tl, hdata⟩ := List.exists_cons_of_ne_nil he
    simp only [List.map_cons, scanEntries, hdata]
    by_cases hdot : ch.toNat = 46
    · have hb : beginsWithDot e.1 = true := by simp [beginsWithDot, hdata, hdot]
      rw [if_pos hdot, ih acc hrest]
      simp [dirNames, fileNames, List.filter_cons, hb]
    · have hb : beginsWithDot e.1 = false := by simp [beginsWithDot, hdata, hdot]
      rw [if_neg hdot]
      by_cases hd : e.2.isDir = true
      · rw [if_pos hd, ih _ hrest]
        simp [dirNames, fileNames, List.filter_cons, hb, hd]
      · rw [if_neg hd, ih _ hrest]
        simp [dirNames, fileNames, List.filter_cons, hb, hd]

theorem mem_dirNames (es : List (String × Node)) (n : String) :
    n ∈ dirNames es ↔ ∃ node, (n, node) ∈ es ∧ beginsWithDot n = false ∧ node.isDir = true := by
  simp only [dirNames, List.mem_map, List.mem_filter, Bool.and_eq_true, Bool.not_eq_true']
  constructor
  · rintro ⟨⟨k, node⟩, ⟨hmem, hv, hd⟩, rfl⟩
    exact ⟨node, hmem, hv, hd⟩
  · rintro ⟨node, hmem, hv, hd⟩
    exact ⟨(n, node), ⟨hmem, hv, hd⟩, rfl⟩

theorem mem_fileNames (es : List (String × Node)) (n : String) :
    n ∈ fileNames es ↔ ∃ node, (n, node) ∈ es ∧ beginsWithDot n = false ∧ node.isDir = false := by
  simp only [fileNames, List.mem_map, List.mem_filter, Bool.and_eq_true, Bool.not_eq_true']
  constructor
  · rintro ⟨⟨k, node⟩, ⟨hmem, hv, hd⟩, rfl⟩
    exact ⟨node, hmem, hv, hd⟩
  · rintro ⟨node, hmem, hv, hd⟩
    exact ⟨(n, node), ⟨hmem, hv, hd⟩, rfl⟩

theorem nodup_filter_names (es : List (String × Node)) (q : String × Node → Bool)
    (h : (es.map Prod.fst).Nodup) : ((es.filter q).map Prod.fst).Nodup :=
  List.Nodup.sublist (List.Sublist.map _ (List.filter_sublist es)) h

theorem nodup_map_snoc (wd : Path) (ns : List String) (h : ns.Nodup) :
    (ns.map (fun n => wd ++ [n])).Nodup := by
  refine List.Nodup.map (fun a b hab => ?_) h
  simpa using hab

theorem below_snoc_unique (loc : Path) (n m : String) (p : Path)
    (h1 : Below (loc ++ [n]) p) (h2 : Below (loc ++ [m]) p) : n = m := by
  obtain ⟨r1, _, rfl, _⟩ := h1
  obtain ⟨r2, _, h, _⟩ := h2
  simp only [List.append_assoc, List.singleton_append] at h
  have := List.append_cancel_left h
  simp only [List.cons.injEq] at this
  exact this.1

theorem not_below_snoc (loc : Path) (n m : String) : ¬ Below (loc ++ [n]) (loc ++ [m]) := by
  rintro ⟨rel, hne, h, _⟩
  simp only [List.append_assoc, List.singleton_append] at h
  have := List.append_cancel_left h
  simp only [List.cons.injEq] at this
  exact hne this.2.symm

theorem crawlDirs_spec (root : Node) (rec : Path → DirArg → Option (Path × Outcome))
    (loc : Path) :
    ∀ (ns : List String) (acc : Result), ns.Nodup →
      (∀ n ∈ ns, ∀ cwd, ∃ r, rec cwd (.abs (loc ++ [n])) = some (loc, .ok r)
        ∧ CrawlSpec root (loc ++ [n]) r) →
      ∃ acc', crawlDirs rec (ns.map (fun n => loc ++ [n])) loc acc = some (loc, .ok acc')
        ∧ (∀ p, p ∈ acc'.Dirs ↔
            p ∈ acc.Dirs ∨ ∃ n ∈ ns, Below (loc ++ [n]) p ∧ EntryAt root p true)
        ∧ (∀ p, p ∈ acc'.Files ↔
            p ∈ acc.Files ∨ ∃ n ∈ ns, Below (loc ++ [n]) p ∧ EntryAt root p false)
        ∧ (acc.Dirs.Nodup → (∀ p ∈ acc.Dirs, ∀ n ∈ ns, ¬ Below (loc ++ [n]) p) →
            acc'.Dirs.Nodup)
        ∧ (acc.Files.Nodup → (∀ p ∈ acc.Files, ∀ n ∈ ns, ¬ Below (loc ++ [n]) p) →
            acc'.Files.Nodup) := by
  intro ns
  induction ns with
  | nil =>
    intro acc _ _
    exact ⟨acc, rfl, by simp, by simp, fun h _ => h, fun h _ => h⟩
  | cons n rest ih =>
    intro acc hnd hrec
    obtain ⟨hn, hrestnd⟩ := List.nodup_cons.1 hnd
    obtain ⟨r, hr, hD, hF, hDnd, hFnd⟩ := hrec n (List.mem_cons_self _ _) loc
    obtain ⟨acc', hrun, hDirs, hFiles, hDn, hFn⟩ :=
      ih ⟨acc.Dirs ++ r.Dirs, acc.Files ++ r.Files⟩ hrestnd
        (fun m hm cwd => hrec m (List.mem_cons_of_mem _ hm) cwd)
    refine ⟨acc', ?_, ?_, ?_, ?_, ?_⟩
    · simp only [List.map_cons, crawlDirs, hr]
      exact hrun
    · intro p
      rw [hDirs p]
      simp only [List.mem_append, List.mem_cons, exists_eq_or_imp, hD p]
      exact or_assoc
    · intro p
      rw [hFiles p]
      simp only [List.mem_append, List.mem_cons, exists_eq_or_imp, hF p]
      exact or_assoc
    · intro hacc hdis
      refine hDn ?_ ?_
      · have hdj : List.Disjoint acc.Dirs r.Dirs :=
          List.disjoint_left.2 (fun p hp1 hp2 =>
            hdis p hp1 n (List.mem_cons_self _ _) ((hD p).1 hp2).1)
        exact List.Nodup.append hacc hDnd hdj
      · intro p hp m hm hbelow
        rcases List.mem_append.1 hp with hp | hp
        · exact hdis p hp m (List.mem_cons_of_mem _ hm) hbelow
        · have := below_snoc_unique loc n m p ((hD p).1 hp).1 hbelow
          exact hn (this ▸ hm)
    · intro hacc hdis
      refine hFn ?_ ?_
      · have hdj : List.Disjoint acc.Files r.Files :=
          List.disjoint_left.2 (fun p hp1 hp2 =>
            hdis p hp1 n (List.mem_cons_self _ _) ((hF p).1 hp2).1)
        exact List.Nodup.append hacc hFnd hdj
      · intro p hp m hm hbelow
        rcases List.mem_append.1 hp with hp | hp
        · exact hdis p hp m (List.mem_cons_of_mem _ hm) hbelow
        · have := below_snoc_unique loc n m p ((hF p).1 hp).1 hbelow
          exact hn (this ▸ hm)

theorem crawlDirs_guard (rec : Path → DirArg → Option (Path × Outcome)) (ds : List Path)
    (wd : Path) (result : Result) :
    (if ds.length > 0 then crawlDirs rec ds wd result else some (wd, .ok result))
      = crawlDirs rec ds wd result := by
  cases ds with
  | nil => rfl
  | cons d rest => simp

/-! ### The result of `crawl` -/

theorem lookup_entry (root : Node) (loc : Path) (e l : Bool) (es : List (String × Node))
    (hl : lookup root loc = some (.dir e l es)) (n : String) (rel : Path) :
    lookup root (loc ++ n :: rel) = (es.lookup n).bind (fun ch => lookup ch rel) := by
  rw [lookup_append, hl]
  simp only [Option.some_bind, lookup, Node.child]
  cases es.lookup n <;> rfl

theorem isDir_of_lookup_cons (ch : Node) (m : String) (rel : Path) (x : Node)
    (h : lookup ch (m :: rel) = some x) : ch.isDir = true := by
  cases ch with
  | file => simp [lookup, Node.child] at h
  | dir _ _ _ => rfl

theorem below_entry (root : Node) (loc : Path) (e l : Bool) (es : List (String × Node))
    (hl : lookup root loc = some (.dir e l es)) (p : Path) (x : Node)
    (hb : Below loc p) (hx : lookup root p = some x) :
    ∃ n ch rel, p = loc ++ n :: rel ∧ (n, ch) ∈ es ∧ beginsWithDot n = false
      ∧ lookup ch rel = some x ∧ (rel ≠ [] → Below (loc ++ [n]) p ∧ ch.isDir = true) := by
  obtain ⟨rel, hne, rfl, hvis⟩ := hb
  obtain ⟨n, rel', rfl⟩ := List.exists_cons_of_ne_nil hne
  rw [lookup_entry root loc e l es hl] at hx
  cases hch : es.lookup n with
  | none => simp [hch] at hx
  | some ch =>
    simp only [hch, Option.some_bind] at hx
    refine ⟨n, ch, rel', rfl, mem_of_lookup es n ch hch, hvis n (List.mem_cons_self _ _), hx, ?_⟩
    intro hne'
    constructor
    · exact ⟨rel', hne', by simp, fun m hm => hvis m (List.mem_cons_of_mem _ hm)⟩
    · obtain ⟨m, r, rfl⟩ := List.exists_cons_of_ne_nil hne'
      exact isDir_of_lookup_cons ch m r x hx

theorem below_of_below_snoc (loc : Path) (n : String) (p : Path)
    (hn : beginsWithDot n = false) (h : Below (loc ++ [n]) p) : Below loc p := by
  obtain ⟨rel, _, rfl, hvis⟩ := h
  refine ⟨n :: rel, by simp, by simp, ?_⟩
  intro m hm
  rcases List.mem_cons.1 hm with rfl | hm
  · exact hn
  · exact hvis m hm

theorem crawl_abs_spec (root : Node) (hacc : root.accessible = true)
    (hwn : root.wellNamed = true) :
    ∀ (fuel : Nat) (loc : Path) (node : Node) (cwd : Path), lookup root loc = some node →
      node.isDir = true → node.height ≤ fuel →
      ∃ r, crawl root fuel cwd (.abs loc) = some (loc.dropLast, .ok r)
        ∧ CrawlSpec root loc r := by
  intro fuel
  induction fuel with
  | zero =>
    intro loc node cwd _ hdir hh
    cases node with
    | file => simp [Node.isDir] at hdir
    | dir e l es => simp [Node.height] at hh
  | succ fuel ih =>
    intro loc node cwd hl hdir hh
    cases node with
    | file => simp [Node.isDir] at hdir
    | dir e l es =>
      have ha := lookup_accessible loc root _ hl hacc
      simp only [Node.accessible, Bool.and_eq_true] at ha
      obtain ⟨⟨he, hlist⟩, _⟩ := ha
      subst he hlist
      have hw := lookup_wellNamed loc root _ hl hwn
      simp only [Node.wellNamed, namesOk, Bool.and_eq_true, decide_eq_true_eq,
        List.all_eq_true, Bool.not_eq_true', List.isEmpty_eq_false] at hw
      obtain ⟨⟨hnames, hnonempty⟩, _⟩ := hw
      simp only [Node.height] at hh
      -- the calls to the operating system
      have hchdir : chdir root cwd (.abs loc) = .ok loc := by simp [chdir, enter, hl]
      have hread : readDir root loc = .ok (es.map (fun e => ⟨e.1, e.2.isDir⟩)) := by
        simp [readDir, hl]
      have hscan := scanEntries_eq loc es ⟨[], []⟩ (fun x hx => hnonempty x hx)
      simp only [List.nil_append] at hscan
      obtain ⟨e', l', es', hpar⟩ := lookup_dropLast root loc _ hl rfl
      have hpa := lookup_accessible _ root _ hpar hacc
      simp only [Node.accessible, Bool.and_eq_true] at hpa
      obtain ⟨⟨he', _⟩, _⟩ := hpa
      subst he'
      have hup : chdir root loc .dotdot = .ok loc.dropLast := by simp [chdir, enter, hpar]
      -- the recursive calls
      have hdn : (dirNames es).Nodup := nodup_filter_names es _ hnames
      have hfn : (fileNames es).Nodup := nodup_filter_names es _ hnames
      have hrec : ∀ n ∈ dirNames es, ∀ cwd', ∃ r,
          crawl root fuel cwd' (.abs (loc ++ [n])) = some (loc, .ok r)
            ∧ CrawlSpec root (loc ++ [n]) r := by
        intro n hn cwd'
        obtain ⟨ch, hmem, _, hchdir'⟩ := (mem_dirNames es n).1 hn
        have hlk : lookup root (loc ++ [n]) = some ch := by
          rw [lookup_entry root loc true true es hl, lookup_of_mem es n ch hnames hmem]
          rfl
        have hht := height_of_mem es (n, ch) hmem
        obtain ⟨r, hr, hspec⟩ := ih (loc ++ [n]) ch cwd' hlk hchdir' (by simp only at hht; omega)
        rw [List.dropLast_concat] at hr
        exact ⟨r, hr, hspec⟩
      obtain ⟨acc', hrun, hDirs, hFiles, hDn, hFn⟩ :=
        crawlDirs_spec root (crawl root fuel) loc (dirNames es)
          ⟨(dirNames es).map (fun n => loc ++ [n]),
            (fileNames es).map (fun n => loc ++ [n])⟩ hdn hrec
      refine ⟨acc', ?_, ?_, ?_, ?_, ?_⟩
      · simp only [crawl, hchdir, hread, hscan]
        rw [crawlDirs_guard, hrun]
        simp only [hup]
      · intro p
        rw [hDirs p]
        constructor
        · rintro (hp | ⟨n, hn, hb, hentry⟩)
          · simp only [List.mem_map] at hp
            obtain ⟨n, hn, rfl⟩ := hp
            obtain ⟨ch, hmem, hvis, hd⟩ := (mem_dirNames es n).1 hn
            refine ⟨⟨[n], by simp, rfl, by simpa using hvis⟩, ch, ?_, hd⟩
            rw [lookup_entry root loc true true es hl, lookup_of_mem es n ch hnames hmem]
            rfl
          · obtain ⟨_, _, hvis, _⟩ := (mem_dirNames es n).1 hn
            exact ⟨below_of_below_snoc loc n p hvis hb, hentry⟩
        · rintro ⟨hb, x, hx, hxd⟩
          obtain ⟨n, ch, rel, rfl, hmem, hvis, hlk, hdeep⟩ :=
            below_entry root loc true true es hl p x hb hx
          by_cases hrel : rel = []
          · subst hrel
            simp only [lookup, Option.some.injEq] at hlk
            subst hlk
            left
            simp only [List.mem_map]
            exact ⟨n, (mem_dirNames es n).2 ⟨ch, hmem, hvis, hxd⟩, rfl⟩
          · right
            obtain ⟨hbelow, hchd⟩ := hdeep hrel
            exact ⟨n, (mem_dirNames es n).2 ⟨ch, hmem, hvis, hchd⟩, hbelow, x, hx, hxd⟩
      · intro p
        rw [hFiles p]
        constructor
        · rintro (hp | ⟨n, hn, hb, hentry⟩)
          · simp only [List.mem_map] at hp
            obtain ⟨n, hn, rfl⟩ := hp
            obtain ⟨ch, hmem, hvis, hd⟩ := (mem_fileNames es n).1 hn
            refine ⟨⟨[n], by simp, rfl, by simpa using hvis⟩, ch, ?_, hd⟩
            rw [lookup_entry root loc true true es hl, lookup_of_mem es n ch hnames hmem]
            rfl
          · obtain ⟨_, _, hvis, _⟩ := (mem_dirNames es n).1 hn
            exact ⟨below_of_below_snoc loc n p hvis hb, hentry⟩
        · rintro ⟨hb, x, hx, hxd⟩
          obtain ⟨n, ch, rel, rfl, hmem, hvis, hlk, hdeep⟩ :=
            below_entry root loc true true es hl p x hb hx
          by_cases hrel : rel = []
          · subst hrel
            simp only [lookup, Option.some.injEq] at hlk
            subst hlk
            left
            simp only [List.mem_map]
            exact ⟨n, (mem_fileNames es n).2 ⟨ch, hmem, hvis, hxd⟩, rfl⟩
          · right
            obtain ⟨hbelow, hchd⟩ := hdeep hrel
            exact ⟨n, (mem_dirNames es n).2 ⟨ch, hmem, hvis, hchd⟩, hbelow, x, hx, hxd⟩
      · refine hDn (nodup_map_snoc loc _ hdn) ?_
        intro p hp n _ hb
        simp only [List.mem_map] at hp
        obtain ⟨m, _, rfl⟩ := hp
        exact not_below_snoc loc n m hb
      · refine hFn (nodup_map_snoc loc _ hfn) ?_
        intro p hp n _ hb
        simp only [List.mem_map] at hp
        obtain ⟨m, _, rfl⟩ := hp
        exact not_below_snoc loc n m hb

theorem crawl_dot (root : Node) (fuel : Nat) (cwd : Path) :
    crawl root fuel cwd .dot = crawl root fuel cwd (.abs cwd) := by
  cases fuel <;> rfl

theorem below_rel_visible (loc p : Path) (h : Below loc p) (rel : Path) (hp : p = loc ++ rel) :
    ∀ name ∈ rel, beginsWithDot name = false := by
  obtain ⟨rel', _, rfl, hvis⟩ := h
  have := List.append_cancel_left hp
  subst this
  exact hvis

theorem crawl_dot_ends_in_parent (root : Node) (cwd : Path) (node : Node) (fuel : Nat)
    (hacc : root.accessible = true) (hwn : root.wellNamed = true)
    (hl : lookup root cwd = some node) (hdir : node.isDir = true)
    (hfuel : node.height ≤ fuel) :
    ∃ r, crawl root fuel cwd .dot = some (cwd.dropLast, .ok r) := by
  obtain ⟨r, hr, _⟩ := crawl_abs_spec root hacc hwn fuel cwd node cwd hl hdir hfuel
  exact ⟨r, by rw [crawl_dot, hr]⟩

/-- C4: in a tree in which every directory can be entered and listed (and, as in
a filesystem, the names of a directory are non-empty and distinct), the call
`crawl(".")` in a directory `cwd`, given a recursion depth that covers the
height of the directory, returns a result: `Dirs` holds exactly the directories
and `Files` exactly the other entries reached from `cwd` through names that do
not begin with a dot; no path is listed twice; and no listed path has, below
`cwd`, a name that begins with a dot. -/
theorem crawl_lists_visible_entries (root : Node) (cwd : Path) (node : Node) (fuel : Nat)
    (hacc : root.accessible = true) (hwn : root.wellNamed = true)
    (hl : lookup root cwd = some node) (hdir : node.isDir = true)
    (hfuel : node.height ≤ fuel) :
    ∃ r cwd', crawl root fuel cwd .dot = some (cwd', .ok r)
      ∧ (∀ p, p ∈ r.Dirs ↔ Below cwd p ∧ EntryAt root p true)
      ∧ (∀ p, p ∈ r.Files ↔ Below cwd p ∧ EntryAt root p false)
      ∧ (r.Dirs ++ r.Files).Nodup
      ∧ ∀ p ∈ r.Dirs ++ r.Files, ∀ rel, p = cwd ++ rel →
          ∀ name ∈ rel, beginsWithDot name = false := by
  obtain ⟨r, hr, hD, hF, hDn, hFn⟩ :=
    crawl_abs_spec root hacc hwn fuel cwd node cwd hl hdir hfuel
  refine ⟨r, cwd.dropLast, by rw [crawl_dot, hr], hD, hF, ?_, ?_⟩
  · have hdj : List.Disjoint r.Dirs r.Files := by
      refine List.disjoint_left.2 (fun p hp1 hp2 => ?_)
      obtain ⟨_, x, hx, hxd⟩ := (hD p).1 hp1
      obtain ⟨_, y, hy, hyd⟩ := (hF p).1 hp2
      rw [hx] at hy
      cases hy
      rw [hxd] at hyd
      cases hyd
    exact List.Nodup.append hDn hFn hdj
  · intro p hp rel hrel
    rcases List.mem_append.1 hp with hp | hp
    · exact below_rel_visible cwd p ((hD p).1 hp).1 rel hrel
    · exact below_rel_visible cwd p ((hF p).1 hp).1 rel hrel

/-- Witness of C4: the example tree, crawled from `/root`: `Files` is `a.txt`
and `sub/b.txt`, `Dirs` is `sub`. -/
theorem crawl_lists_visible_entries_witness :
    (exampleTree.accessible = true ∧ exampleTree.wellNamed = true
      ∧ lookup exampleTree ["root"] = some exampleDir ∧ exampleDir.isDir = true
      ∧ exampleDir.height ≤ 2)
    ∧ (∃ r cwd', crawl exampleTree 2 ["root"] .dot = some (cwd', .ok r)
      ∧ (∀ p, p ∈ r.Dirs ↔ Below ["root"] p ∧ EntryAt exampleTree p true)
      ∧ (∀ p, p ∈ r.Files ↔ Below ["root"] p ∧ EntryAt exampleTree p false)
      ∧ (r.Dirs ++ r.Files).Nodup
      ∧ ∀ p ∈ r.Dirs ++ r.Files, ∀ rel, p = ["root"] ++ rel →
          ∀ name ∈ rel, beginsWithDot name = false)
    ∧ crawl exampleTree 2 ["root"] .dot
        = some ([], .ok ⟨[["root", "sub"]], [["root", "a.txt"], ["root", "sub", "b.txt"]]⟩) :=
  ⟨⟨by decide, by decide, rfl, rfl, by decide⟩,
    crawl_lists_visible_entries exampleTree ["root"] exampleDir 2 (by decide) (by decide)
      rfl rfl (by decide),
    by decide⟩

/-- C6 (the code departs from the claim): the call `crawl(".")` of `main`, made
in `/root` of the example tree, returns its result with the working directory
`/`, not `/root`; and the call made in `/home/proj`, one subdirectory of which
cannot be entered, returns the error with the working directory `/`, two levels
above `/home/proj`. -/
theorem crawl_leaves_working_directory :
    crawl exampleTree 2 ["root"] .dot
        = some ([], .ok ⟨[["root", "sub"]], [["root", "a.txt"], ["root", "sub", "b.txt"]]⟩)
      ∧ crawl lockedTree 2 ["home", "proj"] .dot = some ([], .error .chdirFailed)
      ∧ crawl lockedTree 1 ["home", "proj"] (.abs ["home", "proj", "sub"])
          = some (["home"], .error .chdirFailed) := by
  refine ⟨by decide, by decide, by decide⟩

end Sloc
